import Mathlib

/-!
Verification of the in-memory data dictionary cache (dict0dict.cc) of an
InnoDB-style storage engine.  Each component that the checked claims touch
is shallowly embedded as executable Lean definitions that mirror the C
source, and the claims are settled as theorems about those definitions.
-/

set_option maxHeartbeats 1000000

namespace IndexBuilder

/-- A table column as referenced by index fields: its position (ind) in the
owning table's column array and whether it is a virtual (computed) column. -/
structure Col where
  ind : Nat
  isVirtual : Bool
deriving DecidableEq, Repr

/-- An index field (dict_field_t): a column reference plus a prefix length;
prefix length 0 means the whole column is indexed. -/
structure Field where
  col : Col
  prefixLen : Nat
deriving DecidableEq, Repr

/-- The owning table as the index builder sees it: nUserCols non-system
physical columns occupy positions 0 .. nUserCols-1 of the column array, and
the three system columns DB_ROW_ID, DB_TRX_ID, DB_ROLL_PTR occupy the last
three positions (DATA_N_SYS_COLS = 3), in that order. -/
structure Table where
  nUserCols : Nat
deriving Repr

/-- The hidden row-id system column (dict_table_get_sys_col DATA_ROW_ID). -/
def Table.rowIdCol (t : Table) : Col := ⟨t.nUserCols, false⟩

/-- The hidden transaction-id system column (DATA_TRX_ID). -/
def Table.trxIdCol (t : Table) : Col := ⟨t.nUserCols + 1, false⟩

/-- The hidden rollback-pointer system column (DATA_ROLL_PTR). -/
def Table.rollPtrCol (t : Table) : Col := ⟨t.nUserCols + 2, false⟩

/-- The user-declared representation of an index handed to the builder:
the declared field list plus the declaration flags relevant here. -/
structure UserIndex where
  fields : List Field
  isUnique : Bool
  isSpatial : Bool
deriving Repr

/-- The internal (augmented) representation produced by the builder:
the complete field list, the unique-key prefix length n_uniq, and the
user-defined field count n_user_defined_cols. -/
structure BuiltIndex where
  fields : List Field
  nUniq : Nat
  nUserDefinedCols : Nat
deriving DecidableEq, Repr

/-- Mirrors the indexed[] marking array of dict_index_build_internal_clust:
column position i is marked when some field of the list indexes the whole
column (prefix length 0) at that position.  The clustered builder marks the
position regardless of virtuality, exactly as the C loop does. -/
def markedClust (fields : List Field) (i : Nat) : Bool :=
  fields.any fun f => f.prefixLen == 0 && f.col.ind == i

/-- Shallow embedding of dict_index_build_internal_clust: copy the user
fields; n_uniq is the user field count, plus one when the key is not
declared unique; append DB_ROW_ID (only if not unique), DB_TRX_ID and
DB_ROLL_PTR; then append every non-system table column not already marked
as contained whole in the index, in table-column order. -/
def dict_index_build_internal_clust (t : Table) (idx : UserIndex) :
    BuiltIndex :=
  let nUniq := if idx.isUnique then idx.fields.length else
    idx.fields.length + 1
  let withSys := idx.fields
    ++ (if idx.isUnique then [] else [⟨t.rowIdCol, 0⟩])
    ++ [⟨t.trxIdCol, 0⟩, ⟨t.rollPtrCol, 0⟩]
  let rest := ((List.range t.nUserCols).filter
      (fun i => !(markedClust withSys i))).map
      (fun i => (⟨⟨i, false⟩, 0⟩ : Field))
  { fields := withSys ++ rest
    nUniq := nUniq
    nUserDefinedCols := idx.fields.length }

/-- Mirrors the indexed[] marking array of dict_index_build_internal_non_clust:
as markedClust, but fields on virtual columns never mark a position (their
ind values live in a separate namespace). -/
def markedNonClust (fields : List Field) (i : Nat) : Bool :=
  fields.any fun f => !f.col.isVirtual && f.prefixLen == 0 && f.col.ind == i

/-- Shallow embedding of dict_index_build_internal_non_clust: copy the user
fields; for each field of the clustered index's unique-key prefix, append it
(with its prefix length) when its column position is not marked as contained
whole in the user fields, or unconditionally when the new index is spatial;
n_uniq is the user field count when the index is declared unique and the
full augmented count otherwise. -/
def dict_index_build_internal_non_clust (clust : BuiltIndex)
    (idx : UserIndex) : BuiltIndex :=
  let base := idx.fields
  let clustUniq := clust.fields.take clust.nUniq
  let added := clustUniq.filter
    (fun f => !(markedNonClust base f.col.ind) || idx.isSpatial)
  let allFields := base ++ added
  { fields := allFields
    nUniq := if idx.isUnique then idx.fields.length else allFields.length
    nUserDefinedCols := idx.fields.length }

/-- The field list that claim C2 describes, in the claim's own words: the
user fields followed by every clustered unique-prefix field whose column is
not already present in the new index as a whole-column field. -/
def claimNonClustFields (clust : BuiltIndex) (idx : UserIndex) :
    List Field :=
  idx.fields ++ (clust.fields.take clust.nUniq).filter
    (fun f => !(idx.fields.any fun g => g.prefixLen == 0 && g.col == f.col))

end IndexBuilder

namespace IndexBuilder

theorem col_beq_eq (c d : Col) :
    (c == d) = (c.ind == d.ind && c.isVirtual == d.isVirtual) := by
  obtain ⟨a, u⟩ := c
  obtain ⟨b, v⟩ := d
  rw [Bool.eq_iff_iff]
  simp [Col.mk.injEq]

theorem any_whole_col_markedNonClust (fs : List Field) (i : Nat) :
    (fs.any fun g => g.prefixLen == 0 && g.col == (⟨i, false⟩ : Col)) =
      markedNonClust fs i := by
  induction fs with
  | nil => rfl
  | cons f fs ih =>
    simp only [markedNonClust, List.any_cons] at ih ⊢
    rw [ih]
    obtain ⟨⟨ind, virt⟩, plen⟩ := f
    cases virt <;> simp [markedNonClust, col_beq_eq]

theorem any_whole_col_markedClust (fs : List Field) (i : Nat)
    (hnv : ∀ f ∈ fs, f.col.isVirtual = false) :
    (fs.any fun g => g.prefixLen == 0 && g.col == (⟨i, false⟩ : Col)) =
      markedClust fs i := by
  induction fs with
  | nil => rfl
  | cons f fs ih =>
    have hf := hnv f (by simp)
    have ih' := ih (fun g hg => hnv g (by simp [hg]))
    simp only [markedClust, List.any_cons] at ih' ⊢
    rw [ih']
    obtain ⟨⟨ind, virt⟩, plen⟩ := f
    simp only at hf
    subst hf
    simp [markedClust, col_beq_eq]

end IndexBuilder

namespace IndexBuilder

/-- C1: for every user-declared clustered index, the internal representation
is the user fields in order, then a hidden row-id field exactly when the
index is not declared unique, then the hidden transaction-id and
rollback-pointer fields, then every remaining non-system table column not
already present as a whole-column (zero-prefix) field, appended in
table-column order; and n_uniq equals the user-declared field count when the
index is unique, that count plus one otherwise. -/
theorem c1_clustered_internal_representation (t : Table) (idx : UserIndex)
    (hnv : ∀ f ∈ idx.fields, f.col.isVirtual = false) :
    (dict_index_build_internal_clust t idx).fields =
      idx.fields
      ++ (if idx.isUnique then [] else [⟨t.rowIdCol, 0⟩])
      ++ [⟨t.trxIdCol, 0⟩, ⟨t.rollPtrCol, 0⟩]
      ++ ((List.range t.nUserCols).filter
            (fun i => !(idx.fields.any fun f =>
              f.prefixLen == 0 && f.col == (⟨i, false⟩ : Col)))).map
          (fun i => (⟨⟨i, false⟩, 0⟩ : Field))
    ∧ (dict_index_build_internal_clust t idx).nUniq =
        (if idx.isUnique then idx.fields.length
         else idx.fields.length + 1) := by
  have hmark : ∀ i ∈ List.range t.nUserCols,
      (!(markedClust ((idx.fields
          ++ (if idx.isUnique then [] else [(⟨t.rowIdCol, 0⟩ : Field)]))
          ++ [⟨t.trxIdCol, 0⟩, ⟨t.rollPtrCol, 0⟩]) i))
        = (!(idx.fields.any fun f =>
              f.prefixLen == 0 && f.col == (⟨i, false⟩ : Col))) := by
    intro i hi
    have hi' : i < t.nUserCols := List.mem_range.mp hi
    have h1 : (t.nUserCols == i) = false := by
      simp only [beq_eq_false_iff_ne, ne_eq]; omega
    have h2 : (t.nUserCols + 1 == i) = false := by
      simp only [beq_eq_false_iff_ne, ne_eq]; omega
    have h3 : (t.nUserCols + 2 == i) = false := by
      simp only [beq_eq_false_iff_ne, ne_eq]; omega
    rw [any_whole_col_markedClust idx.fields i hnv]
    cases hu : idx.isUnique <;>
      simp [markedClust, List.any_append, Table.rowIdCol, Table.trxIdCol,
        Table.rollPtrCol, h1, h2, h3]
  constructor
  · simp only [dict_index_build_internal_clust]
    rw [List.filter_congr hmark]
  · simp [dict_index_build_internal_clust]

end IndexBuilder

namespace IndexBuilder

/-- C1 witness: the spec's example, a table with one unique column; the
clustered index has the column, trx-id and roll-ptr (3 fields, no row-id)
with unique-key prefix length 1. -/
theorem c1_clustered_internal_representation_witness :
    (∀ f ∈ ([⟨⟨0, false⟩, 0⟩] : List Field), f.col.isVirtual = false)
    ∧ ((dict_index_build_internal_clust ⟨1⟩
          ⟨[⟨⟨0, false⟩, 0⟩], true, false⟩).fields =
        [⟨⟨0, false⟩, 0⟩]
        ++ (if true then [] else [⟨Table.rowIdCol ⟨1⟩, 0⟩])
        ++ [⟨Table.trxIdCol ⟨1⟩, 0⟩, ⟨Table.rollPtrCol ⟨1⟩, 0⟩]
        ++ ((List.range 1).filter
              (fun i => !(([⟨⟨0, false⟩, 0⟩] : List Field).any fun f =>
                f.prefixLen == 0 && f.col == (⟨i, false⟩ : Col)))).map
            (fun i => (⟨⟨i, false⟩, 0⟩ : Field))
      ∧ (dict_index_build_internal_clust ⟨1⟩
          ⟨[⟨⟨0, false⟩, 0⟩], true, false⟩).nUniq =
          (if true then 1 else 1 + 1)) :=
  ⟨by decide, c1_clustered_internal_representation ⟨1⟩
    ⟨[⟨⟨0, false⟩, 0⟩], true, false⟩ (by decide)⟩

/-- Concrete clustered index used to refute C2 on a spatial index: its
unique-key prefix is one field, column 0 with prefix length 10 (a prefix
primary key), followed by the two system fields. -/
def c2ClustEx : BuiltIndex :=
  ⟨[⟨⟨0, false⟩, 10⟩, ⟨⟨1, false⟩, 0⟩, ⟨⟨2, false⟩, 0⟩], 1, 1⟩

/-- Concrete user-declared spatial index over the whole of column 0. -/
def c2IdxEx : UserIndex := ⟨[⟨⟨0, false⟩, 0⟩], false, true⟩

/-- C2 counterexample: a spatial index is non-clustered and non-full-text,
yet the builder re-appends the clustered prefix field even though its column
is already present as a whole-column field, so the built field list differs
from the one the claim prescribes. -/
theorem c2_spatial_counterexample :
    (dict_index_build_internal_non_clust c2ClustEx c2IdxEx).fields ≠
      claimNonClustFields c2ClustEx c2IdxEx := by decide

/-- C2 (amended to non-spatial indexes): for a non-clustered, non-full-text,
non-spatial index, the internal representation is the user fields followed
by each clustered unique-prefix field whose column is not already present as
a whole-column field, with its prefix length; n_uniq is the user field count
when the index is declared unique and the full augmented count otherwise. -/
theorem c2_non_clustered_internal_representation (clust : BuiltIndex)
    (idx : UserIndex) (hsp : idx.isSpatial = false)
    (hnv : ∀ f ∈ clust.fields.take clust.nUniq, f.col.isVirtual = false) :
    (dict_index_build_internal_non_clust clust idx).fields =
      claimNonClustFields clust idx
    ∧ (dict_index_build_internal_non_clust clust idx).nUniq =
        (if idx.isUnique then idx.fields.length
         else (claimNonClustFields clust idx).length) := by
  have hfil : (clust.fields.take clust.nUniq).filter
      (fun f => !(markedNonClust idx.fields f.col.ind) || idx.isSpatial) =
      (clust.fields.take clust.nUniq).filter
      (fun f => !(idx.fields.any fun g =>
        g.prefixLen == 0 && g.col == f.col)) := by
    apply List.filter_congr
    intro f hf
    have hv : f.col.isVirtual = false := hnv f hf
    obtain ⟨⟨a, u⟩, p⟩ := f
    have hv' : u = false := hv
    subst hv'
    rw [hsp, Bool.or_false]
    show (!(markedNonClust idx.fields a)) =
      (!(idx.fields.any fun g => g.prefixLen == 0 && g.col == (⟨a, false⟩ : Col)))
    rw [any_whole_col_markedNonClust idx.fields a]
  constructor
  · simp only [dict_index_build_internal_non_clust, claimNonClustFields]
    rw [hfil]
  · simp only [dict_index_build_internal_non_clust, claimNonClustFields]
    rw [hfil]

/-- C2 witness: a non-unique, non-spatial secondary index over column 3 of a
table whose clustered key is column 0; the amended statement holds there. -/
theorem c2_non_clustered_internal_representation_witness :
    ((⟨[⟨⟨3, false⟩, 0⟩], false, false⟩ : UserIndex).isSpatial = false
      ∧ ∀ f ∈ (⟨[⟨⟨0, false⟩, 0⟩, ⟨⟨5, false⟩, 0⟩, ⟨⟨6, false⟩, 0⟩], 1, 1⟩
          : BuiltIndex).fields.take 1, f.col.isVirtual = false)
    ∧ ((dict_index_build_internal_non_clust
          ⟨[⟨⟨0, false⟩, 0⟩, ⟨⟨5, false⟩, 0⟩, ⟨⟨6, false⟩, 0⟩], 1, 1⟩
          ⟨[⟨⟨3, false⟩, 0⟩], false, false⟩).fields =
        claimNonClustFields
          ⟨[⟨⟨0, false⟩, 0⟩, ⟨⟨5, false⟩, 0⟩, ⟨⟨6, false⟩, 0⟩], 1, 1⟩
          ⟨[⟨⟨3, false⟩, 0⟩], false, false⟩
      ∧ (dict_index_build_internal_non_clust
          ⟨[⟨⟨0, false⟩, 0⟩, ⟨⟨5, false⟩, 0⟩, ⟨⟨6, false⟩, 0⟩], 1, 1⟩
          ⟨[⟨⟨3, false⟩, 0⟩], false, false⟩).nUniq =
          (if (⟨[⟨⟨3, false⟩, 0⟩], false, false⟩ : UserIndex).isUnique
           then 1
           else (claimNonClustFields
            ⟨[⟨⟨0, false⟩, 0⟩, ⟨⟨5, false⟩, 0⟩, ⟨⟨6, false⟩, 0⟩], 1, 1⟩
            ⟨[⟨⟨3, false⟩, 0⟩], false, false⟩).length)) :=
  ⟨⟨by decide, by decide⟩,
    c2_non_clustered_internal_representation
      ⟨[⟨⟨0, false⟩, 0⟩, ⟨⟨5, false⟩, 0⟩, ⟨⟨6, false⟩, 0⟩], 1, 1⟩
      ⟨[⟨⟨3, false⟩, 0⟩], false, false⟩ (by decide) (by decide)⟩

end IndexBuilder

namespace Evict

/-- An index as the eviction scan sees it: only its count of adaptive hash
index pages (the external accelerator pin count) matters. -/
structure EIndex where
  ahiPages : Nat
deriving DecidableEq, Repr

/-- A cached table as the eviction scan sees it: the evictable flag, the two
foreign-key sets, the open-handle reference count, whether the row-lock
inspector reports outstanding locks, and the table's indexes. -/
structure ETable where
  tid : Nat
  canBeEvictedFlag : Bool
  foreignSet : List Nat
  referencedSet : List Nat
  refCount : Nat
  hasLockHolders : Bool
  indexes : List EIndex
deriving DecidableEq, Repr

/-- Shallow embedding of dict_table_can_be_evicted.  The ut_a assertions at
its head (the evictable flag is set; both foreign-key sets are empty) abort
the process when violated, modelled as none; otherwise the result is false
when the reference count is nonzero, when the row-lock inspector reports
locks, or when any index has adaptive hash index pages, and true otherwise. -/
def dict_table_can_be_evicted (t : ETable) : Option Bool :=
  if t.canBeEvictedFlag = false ∨ t.foreignSet ≠ [] ∨ t.referencedSet ≠ []
  then none
  else some
    (if t.refCount = 0 then
      if t.hasLockHolders then false
      else if t.indexes.any (fun ix => ix.ahiPages ≠ 0) then false
      else true
    else false)

/-- The scan loop of dict_make_room_in_cache, walking the LRU list from its
least-recently-used end (head of the argument list), with the remaining scan
budget counter i and the running eviction count.  Returns the kept part of
the scanned list (in scan order) and the evicted tables, or none when an
assertion aborted. -/
def scanLRU (maxTables checkUpTo len : Nat) :
    List ETable → Nat → Nat → Option (List ETable × List ETable)
  | [], _, _ => some ([], [])
  | t :: rest, i, nEvicted =>
    if i > checkUpTo ∧ (len - nEvicted) > maxTables then
      match dict_table_can_be_evicted t with
      | none => none
      | some true =>
        match scanLRU maxTables checkUpTo len rest (i - 1) (nEvicted + 1) with
        | none => none
        | some (kept, ev) => some (kept, t :: ev)
      | some false =>
        match scanLRU maxTables checkUpTo len rest (i - 1) nEvicted with
        | none => none
        | some (kept, ev) => some (t :: kept, ev)
    else some (t :: rest, [])

/-- Shallow embedding of dict_make_room_in_cache.  The argument list is the
LRU list ordered from the least-recently-used end.  The ut_a bounds on
pct_check are modelled as none; when the LRU length is below max_tables
nothing is scanned; otherwise up to pct_check percent of the list is
scanned, evicting evictable tables until the size target is met. -/
def dict_make_room_in_cache (maxTables pctCheck : Nat)
    (lru : List ETable) : Option (List ETable × List ETable) :=
  if pctCheck = 0 ∨ 100 < pctCheck then none
  else if lru.length < maxTables then some (lru, [])
  else scanLRU maxTables
    (lru.length - (lru.length * pctCheck) / 100) lru.length lru lru.length 0

theorem can_be_evicted_true_props (t : ETable)
    (h : dict_table_can_be_evicted t = some true) :
    t.refCount = 0 ∧ t.hasLockHolders = false ∧ t.foreignSet = []
    ∧ t.referencedSet = [] ∧ ∀ ix ∈ t.indexes, ix.ahiPages = 0 := by
  unfold dict_table_can_be_evicted at h
  split at h
  · exact absurd h (by simp)
  · rename_i hflag
    push_neg at hflag
    obtain ⟨h1, h2, h3⟩ := hflag
    split at h
    · split at h
      · simp at h
      · split at h
        · simp at h
        · rename_i href hlock hahi
          refine ⟨href, by simpa using hlock, h2, h3, ?_⟩
          intro ix hix
          by_contra hne
          exact hahi (List.any_eq_true.mpr ⟨ix, hix, by simpa using hne⟩)
    · simp at h

theorem scanLRU_spec (maxTables checkUpTo len : Nat) (l : List ETable) :
    ∀ (i nE : Nat) (kept ev : List ETable),
      scanLRU maxTables checkUpTo len l i nE = some (kept, ev) →
      (∀ t ∈ ev, dict_table_can_be_evicted t = some true)
      ∧ kept.Sublist l
      ∧ (∀ t ∈ l, dict_table_can_be_evicted t ≠ some true → t ∈ kept) := by
  induction l with
  | nil =>
    intro i nE kept ev h
    simp only [scanLRU, Option.some.injEq, Prod.mk.injEq] at h
    rw [← h.1, ← h.2]
    exact ⟨by simp, List.Sublist.refl _, by simp⟩
  | cons t rest ih =>
    intro i nE kept ev h
    simp only [scanLRU] at h
    split at h
    · cases hc : dict_table_can_be_evicted t with
      | none => rw [hc] at h; exact absurd h (by simp)
      | some b =>
        rw [hc] at h
        cases b with
        | true =>
          cases hs : scanLRU maxTables checkUpTo len rest (i - 1) (nE + 1) with
          | none => rw [hs] at h; exact absurd h (by simp)
          | some p =>
            obtain ⟨k', e'⟩ := p
            rw [hs] at h
            simp only [Option.some.injEq, Prod.mk.injEq] at h
            rw [← h.1, ← h.2]
            obtain ⟨ih1, ih2, ih3⟩ := ih (i - 1) (nE + 1) k' e' hs
            refine ⟨?_, ih2.cons t, ?_⟩
            · intro u hu
              rcases List.mem_cons.mp hu with h' | h'
              · exact h' ▸ hc
              · exact ih1 u h'
            · intro u hu hne
              rcases List.mem_cons.mp hu with h' | h'
              · exact absurd (h' ▸ hc) hne
              · exact ih3 u h' hne
        | false =>
          cases hs : scanLRU maxTables checkUpTo len rest (i - 1) nE with
          | none => rw [hs] at h; exact absurd h (by simp)
          | some p =>
            obtain ⟨k', e'⟩ := p
            rw [hs] at h
            simp only [Option.some.injEq, Prod.mk.injEq] at h
            rw [← h.1, ← h.2]
            obtain ⟨ih1, ih2, ih3⟩ := ih (i - 1) nE k' e' hs
            refine ⟨ih1, ih2.cons₂ t, ?_⟩
            intro u hu hne
            rcases List.mem_cons.mp hu with h' | h'
            · exact h' ▸ List.mem_cons_self t k'
            · exact List.mem_cons_of_mem t (ih3 u h' hne)
    · simp only [Option.some.injEq, Prod.mk.injEq] at h
      rw [← h.1, ← h.2]
      exact ⟨by simp, List.Sublist.refl _, fun u hu _ => hu⟩

/-- C3: the make-room eviction scan only ever removes tables whose reference
count is zero, which no row-lock holder references, whose outgoing and
incoming foreign-key sets are empty and none of whose indexes carries
adaptive hash index pages; every table failing the evictability predicate
stays in the surviving list, which is an order-preserving sublist of the
original LRU list. -/
theorem c3_make_room_eviction_safety (maxTables pctCheck : Nat)
    (lru kept evicted : List ETable)
    (h : dict_make_room_in_cache maxTables pctCheck lru =
      some (kept, evicted)) :
    (∀ t ∈ evicted, t.refCount = 0 ∧ t.hasLockHolders = false
      ∧ t.foreignSet = [] ∧ t.referencedSet = []
      ∧ ∀ ix ∈ t.indexes, ix.ahiPages = 0)
    ∧ kept.Sublist lru
    ∧ (∀ t ∈ lru, dict_table_can_be_evicted t ≠ some true → t ∈ kept) := by
  unfold dict_make_room_in_cache at h
  split at h
  · exact absurd h (by simp)
  · split at h
    · simp only [Option.some.injEq, Prod.mk.injEq] at h
      rw [← h.1, ← h.2]
      exact ⟨by simp, List.Sublist.refl _, fun u hu _ => hu⟩
    · obtain ⟨h1, h2, h3⟩ := scanLRU_spec _ _ _ lru _ _ kept evicted h
      exact ⟨fun t ht => can_be_evicted_true_props t (h1 t ht), h2, h3⟩

/-- C3 witness: a two-table LRU list where the least-recently-used table is
evictable and the other is pinned by an open reference; the scan evicts only
the first and keeps the second in place. -/
theorem c3_make_room_eviction_safety_witness :
    (dict_make_room_in_cache 0 100
        [⟨1, true, [], [], 0, false, [⟨0⟩]⟩,
         ⟨2, true, [], [], 1, false, []⟩] =
      some ([⟨2, true, [], [], 1, false, []⟩],
        [⟨1, true, [], [], 0, false, [⟨0⟩]⟩]))
    ∧ ((∀ t ∈ [(⟨1, true, [], [], 0, false, [⟨0⟩]⟩ : ETable)],
        t.refCount = 0 ∧ t.hasLockHolders = false
        ∧ t.foreignSet = [] ∧ t.referencedSet = []
        ∧ ∀ ix ∈ t.indexes, ix.ahiPages = 0)
      ∧ List.Sublist [(⟨2, true, [], [], 1, false, []⟩ : ETable)]
          [⟨1, true, [], [], 0, false, [⟨0⟩]⟩, ⟨2, true, [], [], 1, false, []⟩]
      ∧ (∀ t ∈ [(⟨1, true, [], [], 0, false, [⟨0⟩]⟩ : ETable),
            ⟨2, true, [], [], 1, false, []⟩],
          dict_table_can_be_evicted t ≠ some true →
            t ∈ [(⟨2, true, [], [], 1, false, []⟩ : ETable)])) :=
  ⟨by decide,
    c3_make_room_eviction_safety 0 100
      [⟨1, true, [], [], 0, false, [⟨0⟩]⟩, ⟨2, true, [], [], 1, false, []⟩]
      [⟨2, true, [], [], 1, false, []⟩]
      [⟨1, true, [], [], 0, false, [⟨0⟩]⟩] (by decide)⟩

end Evict

namespace Ahi

/-- An index as deferred reclamation sees it: a heap identity oid, the
external accelerator pin count (adaptive hash index reference count), the
freed marker, the field array and the per-field statistics array
stat_n_diff_key_vals (one entry per unique field). -/
structure AIndex where
  oid : Nat
  refCount : Nat
  freedFlag : Bool
  fields : List Nat
  statNDiffKeyVals : List Nat
deriving DecidableEq, Repr

/-- The table state that deferred reclamation touches: the active index
list, the table-owned freed-but-pinned list, and the log of heap identities
physically freed so far (dict_mem_index_free calls). -/
structure ATable where
  indexes : List AIndex
  freedIndexes : List AIndex
  freedObjects : List Nat
deriving DecidableEq, Repr

/-- Shallow embedding of the tail of dict_index_remove_from_cache_low: the
index is unlinked from the active list; if its accelerator pin count is
nonzero it is marked freed and appended to the freed-indexes list and is not
physically freed; otherwise it is freed immediately. -/
def dict_index_remove_from_cache_low (t : ATable) (idx : AIndex) : ATable :=
  let active := t.indexes.filter (fun j => j.oid ≠ idx.oid)
  if idx.refCount ≠ 0 then
    { t with
        indexes := active
        freedIndexes := t.freedIndexes ++ [{ idx with freedFlag := true }] }
  else
    { t with
        indexes := active
        freedObjects := t.freedObjects ++ [idx.oid] }

/-- Shallow embedding of dict_index_t::clone: a fresh heap object copying
the original (including the duplicated field array via mem_heap_dup) except
that the statistics arrays are allocated zero-filled (mem_heap_zalloc) and
the search info is freshly created (pin count zero). -/
def AIndex.clone (idx : AIndex) (newOid : Nat) : AIndex :=
  { oid := newOid, refCount := 0, freedFlag := idx.freedFlag,
    fields := idx.fields,
    statNDiffKeyVals := List.replicate idx.statNDiffKeyVals.length 0 }

/-- The clone that claim C4 describes: field list and per-field statistics
both copied from the original. -/
def claimClone (idx : AIndex) (newOid : Nat) : AIndex :=
  { oid := newOid, refCount := 0, freedFlag := idx.freedFlag,
    fields := idx.fields, statNDiffKeyVals := idx.statNDiffKeyVals }

/-- Shallow embedding of dict_index_t::clone_if_needed applied to the active
index at a given position: with no pins the index is returned unchanged;
otherwise the original is moved to the end of the freed list and marked
freed, and the clone is spliced into the active list at the original
position. -/
def clone_if_needed (t : ATable) (pos : Nat) (newOid : Nat) :
    ATable × Option AIndex :=
  match t.indexes[pos]? with
  | none => (t, none)
  | some idx =>
    if idx.refCount = 0 then (t, some idx)
    else
      ({ t with
          indexes := t.indexes.take pos ++ [idx.clone newOid]
            ++ t.indexes.drop (pos + 1)
          freedIndexes := t.freedIndexes ++ [{ idx with freedFlag := true }] },
        some (idx.clone newOid))

/-- C4 counterexample: the spliced clone of a pinned index does not copy the
per-field statistics; they are freshly zero-initialized, so the active list
differs from the one the claim (copied statistics) prescribes. -/
theorem c4_clone_stats_counterexample :
    (clone_if_needed ⟨[⟨1, 2, false, [4], [5]⟩], [], []⟩ 0 7).1.indexes ≠
      [claimClone ⟨1, 2, false, [4], [5]⟩ 7] := by decide

/-- C4 (amended: the clone copies the field list but its per-field
statistics are freshly zero-initialized): a pinned index is not physically
freed at logical drop time; it is marked freed and moved to the table-owned
freed list, while an unpinned index is freed at once; replacing a pinned
active index splices a clone (copied fields, zeroed statistics, no pins)
into the active list at the original position, moves the marked original to
the freed list, and frees nothing. -/
theorem c4_deferred_reclamation (t : ATable) (idx cidx : AIndex)
    (pos newOid : Nat) (hpin : idx.refCount ≠ 0)
    (hpos : t.indexes[pos]? = some cidx) (hcpin : cidx.refCount ≠ 0) :
    ((dict_index_remove_from_cache_low t idx).freedObjects = t.freedObjects
      ∧ { idx with freedFlag := true } ∈
          (dict_index_remove_from_cache_low t idx).freedIndexes
      ∧ idx.oid ∉
          ((dict_index_remove_from_cache_low t idx).indexes.map
            (fun j => j.oid)))
    ∧ (∀ u : AIndex, u.refCount ≠ 0 →
        (dict_index_remove_from_cache_low t u).freedObjects = t.freedObjects)
    ∧ ((clone_if_needed t pos newOid).1.freedObjects = t.freedObjects
      ∧ { cidx with freedFlag := true } ∈
          (clone_if_needed t pos newOid).1.freedIndexes
      ∧ (clone_if_needed t pos newOid).1.indexes =
          t.indexes.take pos ++ [cidx.clone newOid]
            ++ t.indexes.drop (pos + 1)
      ∧ (cidx.clone newOid).fields = cidx.fields
      ∧ (cidx.clone newOid).refCount = 0
      ∧ (cidx.clone newOid).statNDiffKeyVals =
          List.replicate cidx.statNDiffKeyVals.length 0) := by
  refine ⟨⟨?_, ?_, ?_⟩, ?_, ?_⟩
  · simp [dict_index_remove_from_cache_low, hpin]
  · simp only [dict_index_remove_from_cache_low, if_pos hpin]
    exact List.mem_append_right _ (by simp)
  · simp only [dict_index_remove_from_cache_low, if_pos hpin]
    simp
  · intro u hu
    simp [dict_index_remove_from_cache_low, hu]
  · rw [clone_if_needed, hpos]
    dsimp only
    rw [if_neg hcpin]
    exact ⟨rfl, List.mem_append_right _ (by simp), rfl, rfl, rfl, rfl⟩

/-- C4 witness: a table with one pinned index (two accelerator pins,
statistics entry 5); both the pinned drop and the clone-and-splice behave as
the amended claim states. -/
theorem c4_deferred_reclamation_witness :
    ((dict_index_remove_from_cache_low
        ⟨[⟨1, 2, false, [4], [5]⟩], [], []⟩
        ⟨1, 2, false, [4], [5]⟩).freedObjects = []
      ∧ ({ (⟨1, 2, false, [4], [5]⟩ : AIndex) with freedFlag := true }) ∈
          (dict_index_remove_from_cache_low
            ⟨[⟨1, 2, false, [4], [5]⟩], [], []⟩
            ⟨1, 2, false, [4], [5]⟩).freedIndexes
      ∧ (1 : Nat) ∉
          ((dict_index_remove_from_cache_low
            ⟨[⟨1, 2, false, [4], [5]⟩], [], []⟩
            ⟨1, 2, false, [4], [5]⟩).indexes.map (fun j => j.oid)))
    ∧ (∀ u : AIndex, u.refCount ≠ 0 →
        (dict_index_remove_from_cache_low
          ⟨[⟨1, 2, false, [4], [5]⟩], [], []⟩ u).freedObjects = [])
    ∧ ((clone_if_needed ⟨[⟨1, 2, false, [4], [5]⟩], [], []⟩ 0 7).1.freedObjects
         = []
      ∧ ({ (⟨1, 2, false, [4], [5]⟩ : AIndex) with freedFlag := true }) ∈
          (clone_if_needed
            ⟨[⟨1, 2, false, [4], [5]⟩], [], []⟩ 0 7).1.freedIndexes
      ∧ (clone_if_needed ⟨[⟨1, 2, false, [4], [5]⟩], [], []⟩ 0 7).1.indexes =
          ([⟨1, 2, false, [4], [5]⟩] : List AIndex).take 0
            ++ [AIndex.clone ⟨1, 2, false, [4], [5]⟩ 7]
            ++ ([⟨1, 2, false, [4], [5]⟩] : List AIndex).drop 1
      ∧ (AIndex.clone ⟨1, 2, false, [4], [5]⟩ 7).fields = [4]
      ∧ (AIndex.clone ⟨1, 2, false, [4], [5]⟩ 7).refCount = 0
      ∧ (AIndex.clone ⟨1, 2, false, [4], [5]⟩ 7).statNDiffKeyVals =
          List.replicate ([5] : List Nat).length 0) :=
  c4_deferred_reclamation ⟨[⟨1, 2, false, [4], [5]⟩], [], []⟩
    ⟨1, 2, false, [4], [5]⟩ ⟨1, 2, false, [4], [5]⟩ 0 7
    (by decide) (by decide) (by decide)

end Ahi

namespace MaxPref

/-- Per-column bookkeeping state: ord_part records that the column already
participates in some index ordering, max_prefix the recorded longest prefix
(0 meaning some index needs the whole column). -/
structure ColState where
  ordPart : Bool
  maxPref : Nat
deriving DecidableEq, Repr

/-- The update that the ordering-column loop of dict_index_add_to_cache
performs on a column for one field referencing it, given the field's prefix
length: first reference records the prefix as-is; a whole-column reference
forces 0; otherwise the maximum is kept, but never once it has become 0. -/
def updateCol (c : ColState) (plen : Nat) : ColState :=
  if c.ordPart = false then ⟨true, plen⟩
  else if plen = 0 then ⟨true, 0⟩
  else if c.maxPref ≠ 0 ∧ c.maxPref < plen then ⟨true, plen⟩
  else c

/-- One ordering field of a built index: the referenced column position and
the field's prefix length. -/
structure OField where
  col : Nat
  prefixLen : Nat
deriving DecidableEq, Repr

/-- The ord_part / max_prefix loop of dict_index_add_to_cache: the first
n_uniq fields of the newly built index are processed in order, updating the
per-column state of the table. -/
def dict_index_add_to_cache_ord (cols : Nat → ColState)
    (fields : List OField) (nUniq : Nat) : Nat → ColState :=
  (fields.take nUniq).foldl
    (fun cs f => fun j =>
      if j = f.col then updateCol (cs j) f.prefixLen else cs j)
    cols

/-- A sequence of index additions, each given by its built field list and
its n_uniq. -/
def addIndexes (cols : Nat → ColState)
    (idxs : List (List OField × Nat)) : Nat → ColState :=
  idxs.foldl (fun cs p => dict_index_add_to_cache_ord cs p.1 p.2) cols

/-- The prefix lengths under which column c appears among the ordering
(first n_uniq) fields across the added indexes, in processing order. -/
def ordOccurrences (idxs : List (List OField × Nat)) (c : Nat) : List Nat :=
  (idxs.map (fun p =>
    ((p.1.take p.2).filter (fun f => f.col = c)).map
      (fun f => f.prefixLen))).flatten

theorem foldl_step_apply (fl : List OField) (cs : Nat → ColState) (c : Nat) :
    (fl.foldl (fun cs f => fun j =>
        if j = f.col then updateCol (cs j) f.prefixLen else cs j) cs) c =
      ((fl.filter (fun f => f.col = c)).map (fun f => f.prefixLen)).foldl
        updateCol (cs c) := by
  induction fl generalizing cs with
  | nil => rfl
  | cons f fl ih =>
    rw [List.foldl_cons, ih]
    by_cases hc : f.col = c
    · rw [List.filter_cons_of_pos (by simp [hc]), List.map_cons,
        List.foldl_cons]
      simp [hc]
    · rw [List.filter_cons_of_neg (by simp [hc])]
      have hc' : ¬ c = f.col := fun h => hc (Eq.symm h)
      simp only [if_neg hc']

theorem addIndexes_apply (cols : Nat → ColState)
    (idxs : List (List OField × Nat)) (c : Nat) :
    addIndexes cols idxs c =
      (ordOccurrences idxs c).foldl updateCol (cols c) := by
  induction idxs generalizing cols with
  | nil => rfl
  | cons p idxs ih =>
    rw [addIndexes, List.foldl_cons, ← addIndexes, ih]
    rw [show ordOccurrences (p :: idxs) c =
        (((p.1.take p.2).filter (fun f => f.col = c)).map
          (fun f => f.prefixLen)) ++ ordOccurrences idxs c from by
        simp [ordOccurrences]]
    rw [List.foldl_append, dict_index_add_to_cache_ord, foldl_step_apply]

theorem foldl_updateCol_true (l : List Nat) :
    ∀ m : Nat, l.foldl updateCol ⟨true, m⟩ =
      ⟨true, if m = 0 ∨ 0 ∈ l then 0 else l.foldl max m⟩ := by
  induction l with
  | nil =>
    intro m
    by_cases hm : m = 0 <;> simp [hm]
  | cons a l ih =>
    intro m
    rw [List.foldl_cons]
    by_cases ha : a = 0
    · subst ha
      rw [show updateCol ⟨true, m⟩ 0 = ⟨true, 0⟩ by simp [updateCol], ih]
      simp
    · by_cases hm : m = 0
      · subst hm
        rw [show updateCol ⟨true, 0⟩ a = ⟨true, 0⟩ by
          simp [updateCol, ha], ih]
        simp
      · by_cases hlt : m < a
        · rw [show updateCol ⟨true, m⟩ a = ⟨true, a⟩ by
            simp [updateCol, ha, hm, hlt], ih]
          have hmem : (0 ∈ a :: l) = (0 ∈ l) := by simp [Ne.symm ha]
          have hfold : List.foldl max m (a :: l) = List.foldl max a l := by
            rw [List.foldl_cons, Nat.max_eq_right (Nat.le_of_lt hlt)]
          simp only [ha, hm, false_or, hmem, hfold]
        · rw [show updateCol ⟨true, m⟩ a = ⟨true, m⟩ by
            simp [updateCol, ha, hm, hlt], ih]
          have hmem : (0 ∈ a :: l) = (0 ∈ l) := by simp [Ne.symm ha]
          have hfold : List.foldl max m (a :: l) = List.foldl max m l := by
            rw [List.foldl_cons, Nat.max_eq_left (Nat.le_of_not_lt hlt)]
          simp only [hm, false_or, hmem, hfold]

/-- C8: for a column whose per-column state is fresh, after any sequence of
index additions the recorded max-prefix is 0 when some ordering reference
used the whole column (and it stays 0 regardless of later prefixed
references), and otherwise the maximum prefix length over all its ordering
references across all indexes; the ord_part flag records that the column is
indexed. -/
theorem c8_column_max_pref_bookkeeping (cols0 : Nat → ColState)
    (idxs : List (List OField × Nat)) (c : Nat)
    (h0 : (cols0 c).ordPart = false)
    (hocc : ordOccurrences idxs c ≠ []) :
    (addIndexes cols0 idxs c).ordPart = true
    ∧ (addIndexes cols0 idxs c).maxPref =
        (if 0 ∈ ordOccurrences idxs c then 0
         else (ordOccurrences idxs c).foldl max 0) := by
  rw [addIndexes_apply]
  obtain ⟨x, rest, hx⟩ : ∃ x rest, ordOccurrences idxs c = x :: rest := by
    cases hh : ordOccurrences idxs c with
    | nil => exact absurd hh hocc
    | cons x rest => exact ⟨x, rest, rfl⟩
  rw [hx, List.foldl_cons]
  have h1 : updateCol (cols0 c) x = ⟨true, x⟩ := by
    simp [updateCol, h0]
  rw [h1, foldl_updateCol_true]
  constructor
  · rfl
  · have : List.foldl max 0 (x :: rest) = List.foldl max x rest := by
      rw [List.foldl_cons, Nat.max_eq_right (Nat.zero_le x)]
    simp only [List.mem_cons, this]
    by_cases hx0 : x = 0 <;> simp [hx0, eq_comm]

/-- C8 witness: one column referenced with prefix 5, then whole (0), then
prefix 7; the recorded max-prefix ends at 0 and ord_part is set. -/
theorem c8_column_max_pref_bookkeeping_witness :
    ((fun _ : Nat => (⟨false, 0⟩ : ColState)) 0).ordPart = false
    ∧ ordOccurrences [([⟨0, 5⟩], 1), ([⟨0, 0⟩], 1), ([⟨0, 7⟩], 1)] 0 ≠ []
    ∧ ((addIndexes (fun _ => ⟨false, 0⟩)
          [([⟨0, 5⟩], 1), ([⟨0, 0⟩], 1), ([⟨0, 7⟩], 1)] 0).ordPart = true
      ∧ (addIndexes (fun _ => ⟨false, 0⟩)
          [([⟨0, 5⟩], 1), ([⟨0, 0⟩], 1), ([⟨0, 7⟩], 1)] 0).maxPref =
          (if 0 ∈ ordOccurrences [([⟨0, 5⟩], 1), ([⟨0, 0⟩], 1),
              ([⟨0, 7⟩], 1)] 0 then 0
           else (ordOccurrences [([⟨0, 5⟩], 1), ([⟨0, 0⟩], 1),
              ([⟨0, 7⟩], 1)] 0).foldl max 0)) :=
  ⟨rfl, by decide,
    c8_column_max_pref_bookkeeping (fun _ => ⟨false, 0⟩)
      [([⟨0, 5⟩], 1), ([⟨0, 0⟩], 1), ([⟨0, 7⟩], 1)] 0 rfl (by decide)⟩

end MaxPref

namespace Mdl

/-- What the protocol observes about the table at some point: its current
qualified name, whether that name parses as a reserved intermediate (#sql)
mid-DDL name, and the readability and accessibility flags it consults. -/
structure TInfo where
  name : String
  intermediate : Bool
  readable : Bool
  accessible : Bool
deriving DecidableEq, Repr

/-- The external collaborators across loop iterations, indexed by the
remaining fuel at the iteration: whether the name-keyed lock acquisition
succeeds, and the result of re-resolving the table by its numeric id
(none when it was dropped meanwhile). -/
structure Env where
  acqOk : Nat → Bool
  reopen : Nat → Option TInfo

/-- The protocol outcome: failure (nullptr), the table returned with no
lock held, or the table returned with the lock held for lockName. -/
inductive MdlResult where
  | notFound : MdlResult
  | noLock (t : TInfo) : MdlResult
  | locked (t : TInfo) (lockName : String) : MdlResult
deriving DecidableEq, Repr

/-- The retry loop of dict_acquire_mdl_shared, entered at the retry label
(always with no lock held): check readability of the table currently known,
request the external lock for the current name snapshot, re-resolve the
table by id, then handle drop, inaccessibility, an intermediate name, a
matching name (done, lock held), or a rename race (release the stale lock
and repeat with the fresh name). -/
def acquireLoop (env : Env) (trylock : Bool) :
    Nat → String → TInfo → MdlResult
  | 0, _, _ => .notFound
  | fuel + 1, name, tbl =>
    if tbl.readable = false then .notFound
    else if trylock ∧ env.acqOk (fuel + 1) = false then .notFound
    else
      match env.reopen (fuel + 1) with
      | none => .notFound
      | some t1 =>
        if t1.accessible = false then .notFound
        else if t1.intermediate then .noLock t1
        else if env.acqOk (fuel + 1) then
          (if t1.name = name then .locked t1 name
           else acquireLoop env trylock fuel t1.name t1)
        else acquireLoop env trylock fuel t1.name t1

/-- Shallow embedding of dict_acquire_mdl_shared: tables without a database
name component (system tables) are returned without locking, as are tables
whose snapshotted name is an intermediate name; otherwise the retry loop
runs from the snapshotted name. -/
def dict_acquire_mdl_shared (env : Env) (trylock : Bool) (fuel : Nat)
    (tbl : TInfo) (hasDbName : Bool) : MdlResult :=
  if hasDbName = false then .noLock tbl
  else if tbl.intermediate then .noLock tbl
  else acquireLoop env trylock fuel tbl.name tbl

theorem acquireLoop_locked_name (env : Env) (trylock : Bool) :
    ∀ (fuel : Nat) (name : String) (tbl t : TInfo) (n : String),
      acquireLoop env trylock fuel name tbl = .locked t n → n = t.name := by
  intro fuel
  induction fuel with
  | zero =>
    intro name tbl t n h
    exact absurd h (by simp [acquireLoop])
  | succ fuel ih =>
    intro name tbl t n h
    simp only [acquireLoop] at h
    split at h
    · exact absurd h (by simp)
    · split at h
      · exact absurd h (by simp)
      · split at h
        · exact absurd h (by simp)
        · rename_i t1 _
          split at h
          · exact absurd h (by simp)
          · split at h
            · exact absurd h (by simp)
            · split at h
              · split at h
                · rename_i hname
                  simp only [MdlResult.locked.injEq] at h
                  rw [← h.2, ← h.1]
                  exact hname.symm
                · exact ih _ _ _ _ h
              · exact ih _ _ _ _ h

/-- C9: in the name-stable lock protocol, once the external lock has been
requested for a name: a table that no longer resolves by id yields a
not-found report with no lock held; a table re-read under the reserved
intermediate prefix is returned with no lock held; a re-read name differing
from the locked name restarts the acquisition with the new name; and on any
return that holds a lock, the lock's name equals the table's current name. -/
theorem c9_name_stable_lock_protocol (env : Env) (trylock : Bool) :
    (∀ (fuel : Nat) (hasDb : Bool) (tbl t : TInfo) (n : String),
      dict_acquire_mdl_shared env trylock fuel tbl hasDb = .locked t n →
        n = t.name)
    ∧ (∀ (fuel : Nat) (name : String) (tbl : TInfo),
        tbl.readable = true → env.acqOk (fuel + 1) = true →
        env.reopen (fuel + 1) = none →
        acquireLoop env trylock (fuel + 1) name tbl = .notFound)
    ∧ (∀ (fuel : Nat) (name : String) (tbl t1 : TInfo),
        tbl.readable = true → env.acqOk (fuel + 1) = true →
        env.reopen (fuel + 1) = some t1 → t1.accessible = true →
        t1.intermediate = true →
        acquireLoop env trylock (fuel + 1) name tbl = .noLock t1)
    ∧ (∀ (fuel : Nat) (name : String) (tbl t1 : TInfo),
        tbl.readable = true → env.acqOk (fuel + 1) = true →
        env.reopen (fuel + 1) = some t1 → t1.accessible = true →
        t1.intermediate = false → t1.name ≠ name →
        acquireLoop env trylock (fuel + 1) name tbl =
          acquireLoop env trylock fuel t1.name t1) := by
  refine ⟨?_, ?_, ?_, ?_⟩
  · intro fuel hasDb tbl t n h
    unfold dict_acquire_mdl_shared at h
    split at h
    · exact absurd h (by simp)
    · split at h
      · exact absurd h (by simp)
      · exact acquireLoop_locked_name env trylock fuel tbl.name tbl t n h
  · intro fuel name tbl hr ha hro
    simp [acquireLoop, hr, ha, hro]
  · intro fuel name tbl t1 hr ha hro hacc hint
    simp [acquireLoop, hr, ha, hro, hacc, hint]
  · intro fuel name tbl t1 hr ha hro hacc hint hne
    simp [acquireLoop, hr, ha, hro, hacc, hint, hne]

/-- A concrete environment for the C9 witness: the lock manager always
grants the lock and re-resolution always finds the table under the same
stable name. -/
def env0 : Env := ⟨fun _ => true, fun _ => some ⟨"d/t", false, true, true⟩⟩

/-- C9 witness: with a stable name and a granting lock manager, a run that
returns with the lock held carries the table's current name, and the three
branch behaviors hold on concrete inputs. -/
theorem c9_name_stable_lock_protocol_witness :
    ("d/t" = (⟨"d/t", false, true, true⟩ : TInfo).name)
    ∧ (acquireLoop ⟨fun _ => true, fun _ => none⟩ false 1 "d/t"
        ⟨"d/t", false, true, true⟩ = .notFound)
    ∧ (acquireLoop ⟨fun _ => true, fun _ => some ⟨"d/u", true, true, true⟩⟩
        false 1 "d/t" ⟨"d/t", false, true, true⟩ =
          .noLock ⟨"d/u", true, true, true⟩)
    ∧ (acquireLoop ⟨fun _ => true, fun _ => some ⟨"d/u", false, true, true⟩⟩
        false 1 "d/t" ⟨"d/t", false, true, true⟩ =
        acquireLoop ⟨fun _ => true, fun _ => some ⟨"d/u", false, true, true⟩⟩
          false 0 "d/u" ⟨"d/u", false, true, true⟩) :=
  ⟨(c9_name_stable_lock_protocol env0 false).1 1 true
      ⟨"d/t", false, true, true⟩ ⟨"d/t", false, true, true⟩ "d/t" (by decide),
    (c9_name_stable_lock_protocol ⟨fun _ => true, fun _ => none⟩ false).2.1
      0 "d/t" ⟨"d/t", false, true, true⟩ rfl rfl rfl,
    (c9_name_stable_lock_protocol
        ⟨fun _ => true, fun _ => some ⟨"d/u", true, true, true⟩⟩ false).2.2.1
      0 "d/t" ⟨"d/t", false, true, true⟩ ⟨"d/u", true, true, true⟩
      rfl rfl rfl rfl rfl,
    (c9_name_stable_lock_protocol
        ⟨fun _ => true, fun _ => some ⟨"d/u", false, true, true⟩⟩ false).2.2.2
      0 "d/t" ⟨"d/t", false, true, true⟩ ⟨"d/u", false, true, true⟩
      rfl rfl rfl rfl rfl (by decide)⟩

end Mdl

namespace Rename

/-- Qualified names and constraint identifiers, modelled as character
lists. -/
abbrev Str := List Char

/-- The fixed generated-name infix dict_ibfk. -/
def dict_ibfk : Str := '_' :: 'i' :: 'b' :: 'f' :: 'k' :: '_' :: []

/-- Length of the database-name component (dict_get_db_name_len): the part
before the first slash. -/
def dbLen (s : Str) : Nat := (s.takeWhile (fun c => c ≠ '/')).length

/-- Strip the database name and the slash (dict_remove_db_name). -/
def dict_remove_db_name (s : Str) : Str :=
  (s.dropWhile (fun c => c ≠ '/')).drop 1

/-- Whether the identifier is in database-qualified format (strchr '/'). -/
def containsSlash (s : Str) : Bool := s.any (fun c => c = '/')

/-- The suffix of s starting at the first occurrence of the dict_ibfk
infix, as strstr finds it; none when the infix is absent. -/
def ibfkSuffix : Str → Option Str
  | [] => none
  | c :: rest =>
    if (c :: rest).take 6 = dict_ibfk then some (c :: rest)
    else ibfkSuffix rest

/-- A foreign-key constraint as the rename-propagation loop sees it. -/
structure RForeign where
  fid : Str
  foreignTableName : Str
  referencedTableName : Str
deriving DecidableEq, Repr

/-- The update dict_table_rename_in_cache applies to one outgoing
constraint when rename propagation is requested.  Charset conversions are
external and modelled as the identity, and names are assumed within the
buffer limits; tmpMark is the external predicate for ids carrying the
temporary table path marker.  The stored owning-table name becomes the new
name; an id in database-qualified format is regenerated from the new name
when it follows the generated-name convention (old name, then dict_ibfk,
then at least one more character), and otherwise has its database-name
prefix replaced by the new name's; an unqualified id is left alone. -/
def renameOutgoing (tmpMark : Str → Bool) (oldName newName : Str)
    (f : RForeign) : RForeign :=
  { f with
      foreignTableName := newName
      fid :=
        if containsSlash f.fid then
          if dict_ibfk.length + oldName.length < f.fid.length
              ∧ f.fid.take oldName.length = oldName
              ∧ (f.fid.drop oldName.length).take 6 = dict_ibfk then
            if tmpMark f.fid then newName ++ f.fid.drop oldName.length
            else newName ++ ((ibfkSuffix f.fid).getD [])
          else
            (newName.take (dbLen newName + 1)) ++ dict_remove_db_name f.fid
        else f.fid }

/-- The update applied to one incoming constraint: only the stored
referenced-table name is rewritten. -/
def renameIncoming (newName : Str) (f : RForeign) : RForeign :=
  { f with referencedTableName := newName }

/-- The rename-propagation pass over both constraint sets
(dict_table_rename_in_cache with rename_also_foreigns true). -/
def dict_table_rename_foreigns (tmpMark : Str → Bool)
    (oldName newName : Str) (outgoing incoming : List RForeign) :
    List RForeign × List RForeign :=
  (outgoing.map (renameOutgoing tmpMark oldName newName),
   incoming.map (renameIncoming newName))

theorem ibfkSuffix_isSome (s : Str) (k : Nat)
    (h : (s.drop k).take 6 = dict_ibfk) : ∃ u, ibfkSuffix s = some u := by
  induction s generalizing k with
  | nil =>
    rw [List.drop_nil, List.take_nil] at h
    exact absurd h (by decide)
  | cons c rest ih =>
    rw [ibfkSuffix]
    split
    · exact ⟨c :: rest, rfl⟩
    · rename_i hne
      cases k with
      | zero => exact absurd h hne
      | succ j => exact ih j h

theorem ibfkSuffix_take6 (s u : Str) (h : ibfkSuffix s = some u) :
    u.take 6 = dict_ibfk := by
  induction s with
  | nil => exact absurd h (by simp [ibfkSuffix])
  | cons c rest ih =>
    rw [ibfkSuffix] at h
    split at h
    · rename_i hy
      rw [← Option.some.inj h]
      exact hy
    · exact ih h

/-- C7 counterexample: a user-chosen database-qualified identifier is not
left untouched by a cross-database rename; its database prefix is
rewritten. -/
theorem c7_user_id_counterexample :
    (renameOutgoing (fun _ => false) ("d/t".toList) ("e/u".toList)
        ⟨"d/myfk".toList, "d/t".toList, []⟩).fid ≠ "d/myfk".toList := by
  decide

/-- C7 (amended): the rename rewrites every outgoing constraint's stored
owning-table name and every incoming constraint's stored referenced-table
name to the new name and leaves incoming identifiers alone; an outgoing
identifier without a database qualifier is untouched; one following the
generated-name convention (old table name, then the dict_ibfk infix) is
regenerated under the new name, still carrying a dict_ibfk suffix; and a
user-chosen database-qualified identifier keeps its name part but has its
database prefix replaced by the new name's database component. -/
theorem c7_rename_propagates_to_constraints (tmpMark : Str → Bool)
    (oldName newName : Str) (f : RForeign) :
    (renameOutgoing tmpMark oldName newName f).foreignTableName = newName
    ∧ (renameIncoming newName f).referencedTableName = newName
    ∧ (renameIncoming newName f).fid = f.fid
    ∧ (containsSlash f.fid = false →
        (renameOutgoing tmpMark oldName newName f).fid = f.fid)
    ∧ (containsSlash f.fid = true →
        (dict_ibfk.length + oldName.length < f.fid.length
          ∧ f.fid.take oldName.length = oldName
          ∧ (f.fid.drop oldName.length).take 6 = dict_ibfk) →
        (renameOutgoing tmpMark oldName newName f).fid =
          newName
            ++ ((renameOutgoing tmpMark oldName newName f).fid.drop
              newName.length)
        ∧ (((renameOutgoing tmpMark oldName newName f).fid.drop
              newName.length).take 6 = dict_ibfk))
    ∧ (containsSlash f.fid = true →
        ¬(dict_ibfk.length + oldName.length < f.fid.length
          ∧ f.fid.take oldName.length = oldName
          ∧ (f.fid.drop oldName.length).take 6 = dict_ibfk) →
        (renameOutgoing tmpMark oldName newName f).fid =
          (newName.take (dbLen newName + 1)) ++ dict_remove_db_name f.fid) := by
  refine ⟨rfl, rfl, rfl, ?_, ?_, ?_⟩
  · intro hs
    simp [renameOutgoing, hs]
  · intro hs hconv
    have hfid : (renameOutgoing tmpMark oldName newName f).fid =
        (if tmpMark f.fid then newName ++ f.fid.drop oldName.length
         else newName ++ ((ibfkSuffix f.fid).getD [])) := by
      simp [renameOutgoing, hs, hconv]
    by_cases htmp : tmpMark f.fid = true
    · rw [hfid, if_pos htmp, List.drop_left]
      exact ⟨rfl, hconv.2.2⟩
    · rw [hfid, if_neg htmp, List.drop_left]
      refine ⟨rfl, ?_⟩
      obtain ⟨u, hu⟩ := ibfkSuffix_isSome f.fid oldName.length hconv.2.2
      rw [hu]
      exact ibfkSuffix_take6 f.fid u hu
  · intro hs hconv
    simp [renameOutgoing, hs, hconv]

/-- C7 witness: renaming d/t to e/u regenerates the generated id
d/t_ibfk_1 and rewrites the stored names as the amended claim states. -/
theorem c7_rename_propagates_to_constraints_witness :
    (renameOutgoing (fun _ => false) ("d/t".toList) ("e/u".toList)
        ⟨"d/t_ibfk_1".toList, "d/t".toList, []⟩).foreignTableName =
      "e/u".toList
    ∧ (renameIncoming ("e/u".toList)
        ⟨"d/t_ibfk_1".toList, "d/t".toList, []⟩).referencedTableName =
      "e/u".toList
    ∧ (renameIncoming ("e/u".toList)
        ⟨"d/t_ibfk_1".toList, "d/t".toList, []⟩).fid = "d/t_ibfk_1".toList
    ∧ (containsSlash ("d/t_ibfk_1".toList) = false →
        (renameOutgoing (fun _ => false) ("d/t".toList) ("e/u".toList)
          ⟨"d/t_ibfk_1".toList, "d/t".toList, []⟩).fid = "d/t_ibfk_1".toList)
    ∧ (containsSlash ("d/t_ibfk_1".toList) = true →
        (dict_ibfk.length + ("d/t".toList).length <
            ("d/t_ibfk_1".toList).length
          ∧ ("d/t_ibfk_1".toList).take ("d/t".toList).length = "d/t".toList
          ∧ (("d/t_ibfk_1".toList).drop ("d/t".toList).length).take 6 =
              dict_ibfk) →
        (renameOutgoing (fun _ => false) ("d/t".toList) ("e/u".toList)
          ⟨"d/t_ibfk_1".toList, "d/t".toList, []⟩).fid =
          "e/u".toList
            ++ ((renameOutgoing (fun _ => false) ("d/t".toList)
              ("e/u".toList)
              ⟨"d/t_ibfk_1".toList, "d/t".toList, []⟩).fid.drop
                ("e/u".toList).length)
        ∧ (((renameOutgoing (fun _ => false) ("d/t".toList) ("e/u".toList)
            ⟨"d/t_ibfk_1".toList, "d/t".toList, []⟩).fid.drop
              ("e/u".toList).length).take 6 = dict_ibfk))
    ∧ (containsSlash ("d/t_ibfk_1".toList) = true →
        ¬(dict_ibfk.length + ("d/t".toList).length <
            ("d/t_ibfk_1".toList).length
          ∧ ("d/t_ibfk_1".toList).take ("d/t".toList).length = "d/t".toList
          ∧ (("d/t_ibfk_1".toList).drop ("d/t".toList).length).take 6 =
              dict_ibfk) →
        (renameOutgoing (fun _ => false) ("d/t".toList) ("e/u".toList)
          ⟨"d/t_ibfk_1".toList, "d/t".toList, []⟩).fid =
          (("e/u".toList).take (dbLen ("e/u".toList) + 1))
            ++ dict_remove_db_name ("d/t_ibfk_1".toList)) :=
  c7_rename_propagates_to_constraints (fun _ => false)
    ("d/t".toList) ("e/u".toList) ⟨"d/t_ibfk_1".toList, "d/t".toList, []⟩

end Rename

namespace FK

/-- A table column as foreign-key qualification consults it: its position,
name, NOT NULL flag, virtual flag, and an opaque type code compared by the
external cmp_cols_are_equal collaborator. -/
structure QCol where
  colNo : Nat
  cname : String
  notNull : Bool
  isVirtual : Bool
  typeCode : Nat
deriving DecidableEq, Repr

/-- An index field for qualification: the referenced column, the field's
own name (used to resolve virtual column names) and its prefix length. -/
structure QField where
  col : QCol
  fieldName : String
  prefixLen : Nat
deriving DecidableEq, Repr

/-- An index as dict_foreign_find_index scans it: identity, field list,
type flags, the to_be_dropped marker and the online DDL status
(0 complete, 1 creation, 2 and above aborted). -/
structure QIndex where
  iid : Nat
  fields : List QField
  isSpatial : Bool
  isFts : Bool
  isCorrupt : Bool
  toBeDropped : Bool
  onlineStatus : Nat
deriving DecidableEq, Repr

/-- The table data qualification reads: physical column names (by
position), virtual column names, and the index list in order. -/
structure QTable where
  colNames : List String
  vColNames : List String
  indexes : List QIndex
deriving DecidableEq, Repr

/-- The external string and type comparators (innobase_strcasecmp and
cmp_cols_are_equal are outside this translation unit). -/
structure QEnv where
  nameEq : String → String → Bool
  cmpCols : QCol → QCol → Bool → Bool

/-- dict_index_is_online_ddl: the index is mid online construction or
abortion. -/
def isOnlineDdl (i : QIndex) : Bool := 1 ≤ i.onlineStatus

/-- The virtual-column name scan of dict_foreign_qualify_index: walk the
virtual column names, stopping at the first case-insensitive match with the
field's name; the scan variable retains the last visited name when nothing
matches, and the empty string when there are no virtual columns. -/
def vColName (nameEq : String → String → Bool) (fname : String) :
    List String → String
  | [] => ""
  | [v] => v
  | v :: rest => if nameEq fname v then v else vColName nameEq fname rest

/-- The column name dict_foreign_qualify_index compares against: for a
virtual column the scanned virtual name, otherwise the entry of the
caller-supplied name override (or the table's names) at the column's
position. -/
def colNameOf (e : QEnv) (t : QTable) (ov : Option (List String))
    (f : QField) : String :=
  if f.col.isVirtual then vColName e.nameEq f.fieldName t.vColNames
  else (ov.getD t.colNames).getD f.col.colNo ""

/-- The per-field loop of dict_foreign_qualify_index over the constraint's
column list: each leading field must index the whole column (no prefix),
satisfy the NOT NULL restriction when requested, match the constraint
column by name, and, when a types index is given, have a column whose type
the external comparator accepts against the types index's column at the
same position. -/
def qualifyFields (e : QEnv) (t : QTable) (ov : Option (List String))
    (cc cn : Bool) :
    List String → List QField → Option (List QField) → Bool
  | [], _, _ => true
  | _ :: _, [], _ => false
  | c :: cs, f :: fs, tfs? =>
    if f.prefixLen ≠ 0 then false
    else if cn && f.col.notNull then false
    else if !(e.nameEq c (colNameOf e t ov f)) then false
    else
      match tfs? with
      | none => qualifyFields e t ov cc cn cs fs none
      | some [] => false
      | some (tf :: tfs) =>
        if !(e.cmpCols f.col tf.col cc) then false
        else qualifyFields e t ov cc cn cs fs (some tfs)

/-- Shallow embedding of dict_foreign_qualify_index. -/
def dict_foreign_qualify_index (e : QEnv) (t : QTable)
    (ov : Option (List String)) (columns : List String) (idx : QIndex)
    (typesIdx : Option QIndex) (cc cn : Bool) : Bool :=
  if idx.fields.length < columns.length then false
  else if idx.isSpatial || idx.isFts || idx.isCorrupt then false
  else if 2 ≤ idx.onlineStatus then false
  else qualifyFields e t ov cc cn columns idx.fields
    (typesIdx.map (fun ti => ti.fields))

/-- Pointer inequality against the types index, by index identity. -/
def typesNe (typesIdx : Option QIndex) (idx : QIndex) : Bool :=
  match typesIdx with
  | none => true
  | some ti => ti.iid != idx.iid

/-- The scan loop of dict_foreign_find_index over the table's index list. -/
def findIndexIn (e : QEnv) (t : QTable) (ov : Option (List String))
    (columns : List String) (typesIdx : Option QIndex) (cc cn : Bool) :
    List QIndex → Option QIndex
  | [] => none
  | idx :: rest =>
    if typesNe typesIdx idx && !idx.toBeDropped && !(isOnlineDdl idx)
        && dict_foreign_qualify_index e t ov columns idx typesIdx cc cn then
      some idx
    else findIndexIn e t ov columns typesIdx cc cn rest

/-- Shallow embedding of dict_foreign_find_index. -/
def dict_foreign_find_index (e : QEnv) (t : QTable)
    (ov : Option (List String)) (columns : List String)
    (typesIdx : Option QIndex) (cc cn : Bool) : Option QIndex :=
  findIndexIn e t ov columns typesIdx cc cn t.indexes

/-- The resolution rule exactly as claim C6 words it: the first index, in
order, that is not marked for deletion, not mid online build, not the types
index, and whose leading fields match the column list by name with zero
prefix (with the type check when a types index is given); nothing in the
claim excludes corrupted, spatial or full-text indexes or checks NOT NULL. -/
def claimFindIndex (e : QEnv) (t : QTable) (ov : Option (List String))
    (columns : List String) (typesIdx : Option QIndex) (cc : Bool) :
    Option QIndex :=
  t.indexes.find? (fun idx =>
    typesNe typesIdx idx && !idx.toBeDropped && !(isOnlineDdl idx)
      && qualifyFields e t ov cc false columns idx.fields
        (typesIdx.map (fun ti => ti.fields)))

end FK

namespace FK

theorem findIndexIn_eq_find? (e : QEnv) (t : QTable)
    (ov : Option (List String)) (columns : List String)
    (typesIdx : Option QIndex) (cc cn : Bool) (l : List QIndex) :
    findIndexIn e t ov columns typesIdx cc cn l =
      l.find? (fun idx =>
        typesNe typesIdx idx && !idx.toBeDropped && !(isOnlineDdl idx)
          && dict_foreign_qualify_index e t ov columns idx typesIdx cc cn)
    := by
  induction l with
  | nil => rfl
  | cons idx rest ih =>
    rw [findIndexIn, ih]
    by_cases hp : (typesNe typesIdx idx && !idx.toBeDropped
        && !(isOnlineDdl idx)
        && dict_foreign_qualify_index e t ov columns idx typesIdx cc cn)
        = true
    · rw [if_pos hp]
      exact (List.find?_cons_of_pos rest hp).symm
    · rw [if_neg (by simpa using hp)]
      exact (List.find?_cons_of_neg rest (by simpa using hp)).symm

theorem qualifyFields_zero_pref (e : QEnv) (t : QTable)
    (ov : Option (List String)) (cc cn : Bool) :
    ∀ (cs : List String) (fs : List QField) (tfs? : Option (List QField)),
      qualifyFields e t ov cc cn cs fs tfs? = true →
      ∀ f ∈ fs.take cs.length, f.prefixLen = 0 := by
  intro cs
  induction cs with
  | nil =>
    intro fs tfs? h f hf
    simp at hf
  | cons c cs ih =>
    intro fs tfs? h f hf
    cases fs with
    | nil => simp at hf
    | cons g fs' =>
      simp only [qualifyFields] at h
      split at h
      · exact absurd h (by simp)
      · rename_i hpz
        split at h
        · exact absurd h (by simp)
        · split at h
          · exact absurd h (by simp)
          · have hg : g.prefixLen = 0 := by
              by_contra hne
              exact hpz hne
            have hf' : f = g ∨ f ∈ fs'.take cs.length := by
              rw [List.length_cons, List.take_succ_cons] at hf
              exact List.mem_cons.mp hf
            split at h
            · rcases hf' with rfl | hf'
              · exact hg
              · exact ih fs' none h f hf'
            · exact absurd h (by simp)
            · split at h
              · exact absurd h (by simp)
              · rcases hf' with rfl | hf'
                · exact hg
                · exact ih fs' _ h f hf'

/-- C6 counterexample: a corrupted index whose leading field matches the
column list by name with zero prefix satisfies every condition the claim
lists, yet dict_foreign_find_index skips it; the claim's resolution rule
picks it. -/
theorem c6_corrupt_counterexample :
    dict_foreign_find_index
        ⟨fun a b => a == b, fun a b _ => a.typeCode == b.typeCode⟩
        ⟨["a"], [], [⟨1, [⟨⟨0, "a", false, false, 0⟩, "a", 0⟩],
          false, false, true, false, 0⟩]⟩
        none ["a"] none true false ≠
      claimFindIndex
        ⟨fun a b => a == b, fun a b _ => a.typeCode == b.typeCode⟩
        ⟨["a"], [], [⟨1, [⟨⟨0, "a", false, false, 0⟩, "a", 0⟩],
          false, false, true, false, 0⟩]⟩
        none ["a"] none true := by decide

/-- C6 (amended): resolution returns the first index, in the table's index
order, that is not the types index, not marked for deletion, not mid online
DDL, and that qualifies — where qualifying additionally requires the index
to be neither spatial, full-text nor corrupted, its online status below
aborted, enough fields, the NOT NULL restriction when the caller requests
it, and the leading fields to match the column list by name with zero
prefix (plus the type check against the types index); there is no further
tie-break, and an index whose leading fields include a prefix field never
qualifies. -/
theorem c6_fk_index_resolution (e : QEnv) (t : QTable)
    (ov : Option (List String)) (columns : List String)
    (typesIdx : Option QIndex) (cc cn : Bool) :
    dict_foreign_find_index e t ov columns typesIdx cc cn =
      t.indexes.find? (fun idx =>
        typesNe typesIdx idx && !idx.toBeDropped && !(isOnlineDdl idx)
          && dict_foreign_qualify_index e t ov columns idx typesIdx cc cn)
    ∧ ∀ idx : QIndex,
        dict_foreign_qualify_index e t ov columns idx typesIdx cc cn = true →
        ∀ f ∈ idx.fields.take columns.length, f.prefixLen = 0 := by
  constructor
  · exact findIndexIn_eq_find? e t ov columns typesIdx cc cn t.indexes
  · intro idx hq f hf
    rw [dict_foreign_qualify_index] at hq
    split at hq
    · exact absurd hq (by simp)
    · split at hq
      · exact absurd hq (by simp)
      · split at hq
        · exact absurd hq (by simp)
        · exact qualifyFields_zero_pref e t ov cc cn columns idx.fields
            (typesIdx.map (fun ti => ti.fields)) hq f hf

/-- C6 witness: a table with a corrupted matching index followed by a clean
matching one; resolution picks the second, as the amended rule computes. -/
theorem c6_fk_index_resolution_witness :
    (dict_foreign_find_index
        ⟨fun a b => a == b, fun a b _ => a.typeCode == b.typeCode⟩
        ⟨["a"], [], [⟨1, [⟨⟨0, "a", false, false, 0⟩, "a", 0⟩],
            false, false, true, false, 0⟩,
          ⟨2, [⟨⟨0, "a", false, false, 0⟩, "a", 0⟩],
            false, false, false, false, 0⟩]⟩
        none ["a"] none true false =
      ([⟨1, [⟨⟨0, "a", false, false, 0⟩, "a", 0⟩],
          false, false, true, false, 0⟩,
        (⟨2, [⟨⟨0, "a", false, false, 0⟩, "a", 0⟩],
          false, false, false, false, 0⟩ : QIndex)]).find? (fun idx =>
        typesNe none idx && !idx.toBeDropped && !(isOnlineDdl idx)
          && dict_foreign_qualify_index
            ⟨fun a b => a == b, fun a b _ => a.typeCode == b.typeCode⟩
            ⟨["a"], [], [⟨1, [⟨⟨0, "a", false, false, 0⟩, "a", 0⟩],
                false, false, true, false, 0⟩,
              ⟨2, [⟨⟨0, "a", false, false, 0⟩, "a", 0⟩],
                false, false, false, false, 0⟩]⟩
            none ["a"] idx none true false))
    ∧ ∀ idx : QIndex,
        dict_foreign_qualify_index
          ⟨fun a b => a == b, fun a b _ => a.typeCode == b.typeCode⟩
          ⟨["a"], [], [⟨1, [⟨⟨0, "a", false, false, 0⟩, "a", 0⟩],
              false, false, true, false, 0⟩,
            ⟨2, [⟨⟨0, "a", false, false, 0⟩, "a", 0⟩],
              false, false, false, false, 0⟩]⟩
          none ["a"] idx none true false = true →
        ∀ f ∈ idx.fields.take (["a"] : List String).length,
          f.prefixLen = 0 :=
  c6_fk_index_resolution
    ⟨fun a b => a == b, fun a b _ => a.typeCode == b.typeCode⟩
    ⟨["a"], [], [⟨1, [⟨⟨0, "a", false, false, 0⟩, "a", 0⟩],
        false, false, true, false, 0⟩,
      ⟨2, [⟨⟨0, "a", false, false, 0⟩, "a", 0⟩],
        false, false, false, false, 0⟩]⟩
    none ["a"] none true false

end FK

namespace FKAdd

open FK

/-- A foreign-key constraint object (dict_foreign_t): heap identity oid,
identifier string (the set key), the stored table names and column-name
lists for both sides, the resolved table pointers (as table ids) and index
pointers, and whether the constraint carries ON ... SET NULL semantics. -/
structure FConstraint where
  oid : Nat
  fid : String
  foreignTableName : String
  referencedTableName : String
  foreignCols : List String
  referencedCols : List String
  foreignTable : Option Nat
  referencedTable : Option Nat
  foreignIndex : Option QIndex
  referencedIndex : Option QIndex
  setNullFlag : Bool
deriving DecidableEq, Repr

/-- A cached table as the foreign-key graph sees it: identity, name, the
qualification data, the outgoing and incoming constraint sets (object
identities, keyed by the constraint identifier) and the evictable flag. -/
structure FTable where
  tid : Nat
  tname : String
  qt : QTable
  foreignSet : List Nat
  referencedSet : List Nat
  canBeEvicted : Bool
deriving DecidableEq, Repr

/-- The dictionary cache state the foreign-key operations touch: the cached
tables and the live constraint heap objects. -/
structure FState where
  tables : List FTable
  foreigns : List FConstraint
deriving DecidableEq, Repr

/-- Name-keyed table lookup (dict_table_check_if_in_cache_low). -/
def findTable (st : FState) (name : String) : Option FTable :=
  st.tables.find? (fun t => t.tname == name)

/-- Id-keyed table lookup, used to re-read a table through its pointer. -/
def findTableById (st : FState) (tid : Nat) : Option FTable :=
  st.tables.find? (fun t => t.tid == tid)

/-- Dereference a constraint object identity. -/
def getForeign (st : FState) (oid : Nat) : Option FConstraint :=
  st.foreigns.find? (fun g => g.oid == oid)

/-- The identifier stored in a live constraint object. -/
def fidOf (st : FState) (oid : Nat) : Option String :=
  (getForeign st oid).map (fun g => g.fid)

/-- std::set lookup by the identifier key (dict_foreign_compare orders the
sets by the id string). -/
def setFindId (st : FState) (set : List Nat) (fid : String) : Option Nat :=
  set.find? (fun o => fidOf st o == some fid)

/-- dict_foreign_find: look for an equal-identifier constraint in the
table's outgoing set, then in its incoming set. -/
def dict_foreign_find (st : FState) (t : FTable) (fid : String) :
    Option Nat :=
  match setFindId st t.foreignSet fid with
  | some o => some o
  | none => setFindId st t.referencedSet fid

/-- In-place update through a table pointer: exactly the (unique) object
with the given id is updated, modelled as first-match replacement. -/
def updateFirstTable (tid : Nat) (u : FTable → FTable) :
    List FTable → List FTable
  | [] => []
  | t :: ts => if t.tid = tid then u t :: ts else t :: updateFirstTable tid u ts

/-- Apply an update to the table with the given id. -/
def updateTable (st : FState) (tid : Nat) (u : FTable → FTable) : FState :=
  { st with tables := updateFirstTable tid u st.tables }

/-- Apply an update to the constraint object with the given identity. -/
def updateForeign (st : FState) (oid : Nat) (u : FConstraint → FConstraint) :
    FState :=
  { st with foreigns :=
      (st.foreigns.map (fun g => if g.oid = oid then u g else g)) }

/-- dict_foreign_free: release the heap object. -/
def dict_foreign_free (st : FState) (oid : Nat) : FState :=
  { st with foreigns := st.foreigns.filter (fun g => g.oid ≠ oid) }

/-- dict_foreign_remove_from_cache: erase the constraint, by its id key,
from the incoming set of its resolved referenced table and the outgoing set
of its resolved owning table, then free it. -/
def dict_foreign_remove_from_cache (st : FState) (oid : Nat) : FState :=
  match getForeign st oid with
  | none => st
  | some g =>
    let st1 := match g.referencedTable with
      | some rtid => updateTable st rtid (fun t =>
          { t with referencedSet :=
              (t.referencedSet.filter
                (fun o => !(fidOf st o == some g.fid))) })
      | none => st
    let st2 := match g.foreignTable with
      | some ftid => updateTable st1 ftid (fun t =>
          { t with foreignSet :=
              (t.foreignSet.filter
                (fun o => !(fidOf st o == some g.fid))) })
      | none => st1
    dict_foreign_free st2 oid

/-- referenced_set.insert with its ut_a(ret.second): an existing member
with the same identifier key aborts the process. -/
def insertRefSet (st : FState) (rtid oid : Nat) (fid : String) :
    Option FState :=
  match findTableById st rtid with
  | none => none
  | some t =>
    if (setFindId st t.referencedSet fid).isSome then none
    else some (updateTable st rtid (fun u =>
      { u with referencedSet := u.referencedSet ++ [oid] }))

/-- foreign_set.insert with its ut_a(ret.second). -/
def insertForSet (st : FState) (ftid oid : Nat) (fid : String) :
    Option FState :=
  match findTableById st ftid with
  | none => none
  | some t =>
    if (setFindId st t.foreignSet fid).isSome then none
    else some (updateTable st ftid (fun u =>
      { u with foreignSet := u.foreignSet ++ [oid] }))

/-- The rollback erase referenced_set.erase with its ut_a(n == 1): the
identifier key must be present. -/
def eraseRefSet (st : FState) (rtid : Nat) (fid : String) : Option FState :=
  match findTableById st rtid with
  | none => none
  | some t =>
    if (setFindId st t.referencedSet fid).isSome then
      some (updateTable st rtid (fun u =>
        { u with referencedSet :=
            (u.referencedSet.filter
              (fun o => !(fidOf st o == some fid))) }))
    else none

/-- dict_sys.prevent_eviction: pin the table. -/
def preventEviction (st : FState) (tid : Nat) : FState :=
  updateTable st tid (fun t => { t with canBeEvicted := false })

/-- The newly supplied heap object entering the live set. -/
def addLive (st : FState) (f : FConstraint) : FState :=
  { st with foreigns := st.foreigns ++ [f] }

/-- The equal-identifier lookup at the head of dict_foreign_add_to_cache:
search the cached owning table's sets first, the referenced table's
otherwise. -/
def resolveFic (st0 : FState) (newF : FConstraint) : Option Nat :=
  match (match findTable st0 newF.foreignTableName with
    | some ft => dict_foreign_find st0 ft newF.fid
    | none => none) with
  | some o => some o
  | none =>
    match findTable st0 newF.referencedTableName with
    | some rt => dict_foreign_find st0 rt newF.fid
    | none => none

/-- The duplicate-identifier block of dict_foreign_add_to_cache: when an
equal-identifier constraint is cached and its resolved owning-table pointer
differs from the currently cached owning table, the cached object is
removed from the cache and the new object takes its place; otherwise the
new object is freed and the cached one reused. -/
def dedupePhase (st0 : FState) (forTid? : Option Nat) (newOid : Nat)
    (fic? : Option Nat) : Option (FState × Nat) :=
  match fic? with
  | none => some (st0, newOid)
  | some o =>
    if o = newOid then some (st0, o)
    else
      match getForeign st0 o with
      | none => none
      | some g =>
        if forTid? ≠ g.foreignTable then
          some (dict_foreign_remove_from_cache st0 o, newOid)
        else
          some (dict_foreign_free st0 newOid, o)

/-- The referenced-side block: when the referenced table is cached and the
current constraint's referenced side is unresolved, search a qualifying
index there (no name override, the foreign index as types index, no NOT
NULL restriction); on non-ignorable failure free a newly supplied object
and report the error; on success record the pointers and insert into the
incoming set. -/
def refPhase (e : QEnv) (cc ignoreNokey : Bool) (newOid : Nat)
    (st : FState) (cur : Nat) (rtid? : Option Nat) :
    Option (FState × Bool × Bool) :=
  match rtid? with
  | none => some (st, false, false)
  | some rtid =>
    match getForeign st cur with
    | none => none
    | some g =>
      if g.referencedTable ≠ none then some (st, false, false)
      else
        match findTableById st rtid with
        | none => none
        | some rt =>
          if dict_foreign_find_index e rt.qt none g.referencedCols
              g.foreignIndex cc false = none ∧ ignoreNokey = false then
            some ((if cur = newOid then dict_foreign_free st newOid else st),
              true, false)
          else
            match insertRefSet (updateForeign st cur (fun h =>
                { h with
                    referencedTable := some rtid
                    referencedIndex :=
                      (dict_foreign_find_index e rt.qt none
                        g.referencedCols g.foreignIndex cc false) }))
                rtid cur g.fid with
            | none => none
            | some st3 => some (st3, false, true)

/-- The owning-side block: when the owning table is cached and the current
constraint's owning side is unresolved, search a qualifying index there
(the caller's name override, the referenced index as types index, the NOT
NULL restriction for SET NULL constraints); on non-ignorable failure, when
the current object is the newly supplied one, erase the insertion made into
the incoming set earlier in the call and free the object; on success record
the pointers and insert into the outgoing set. -/
def forPhase (e : QEnv) (ov : Option (List String)) (cc ignoreNokey : Bool)
    (newOid : Nat) (st : FState) (cur : Nat) (ftid? rtid? : Option Nat)
    (addedRef : Bool) : Option (FState × Bool × Bool) :=
  match ftid? with
  | none => some (st, false, false)
  | some ftid =>
    match getForeign st cur with
    | none => none
    | some g =>
      if g.foreignTable ≠ none then some (st, false, false)
      else
        match findTableById st ftid with
        | none => none
        | some ft =>
          if dict_foreign_find_index e ft.qt ov g.foreignCols
              g.referencedIndex cc g.setNullFlag = none
              ∧ ignoreNokey = false then
            if cur = newOid then
              match (if addedRef then
                  (match rtid? with
                   | some rtid => eraseRefSet st rtid g.fid
                   | none => none)
                else some st) with
              | none => none
              | some stE => some (dict_foreign_free stE newOid, true, false)
            else some (st, true, false)
          else
            match insertForSet (updateForeign st cur (fun h =>
                { h with
                    foreignTable := some ftid
                    foreignIndex :=
                      (dict_foreign_find_index e ft.qt ov
                        g.foreignCols g.referencedIndex cc g.setNullFlag) }))
                ftid cur g.fid with
            | none => none
            | some st3 => some (st3, false, true)

/-- Shallow embedding of dict_foreign_add_to_cache: the result is the new
state together with the error flag (true for DB_CANNOT_ADD_CONSTRAINT);
none models a ut_a assertion failure. -/
def dict_foreign_add_to_cache (e : QEnv) (ov : Option (List String))
    (cc ignoreNokey : Bool) (st : FState) (newF : FConstraint) :
    Option (FState × Bool) :=
  let st0 := addLive st newF
  let forT? := findTable st0 newF.foreignTableName
  let refT? := findTable st0 newF.referencedTableName
  if forT? = none ∧ refT? = none then none
  else
    match dedupePhase st0 (forT?.map (fun t => t.tid)) newF.oid
        (resolveFic st0 newF) with
    | none => none
    | some (st1, cur) =>
      match refPhase e cc ignoreNokey newF.oid st1 cur
          (refT?.map (fun t => t.tid)) with
      | none => none
      | some (st2, refErr, addedRef) =>
        if refErr then some (st2, true)
        else
          match forPhase e ov cc ignoreNokey newF.oid st2 cur
              (forT?.map (fun t => t.tid)) (refT?.map (fun t => t.tid))
              addedRef with
          | none => none
          | some (st3, forErr, addedFor) =>
            if forErr then some (st3, true)
            else
              let st4 := if addedRef then
                  (match refT? with
                   | some rt => preventEviction st3 rt.tid
                   | none => st3)
                else st3
              let st5 := if addedFor then
                  (match forT? with
                   | some ft => preventEviction st4 ft.tid
                   | none => st4)
                else st4
              some (st5, false)

end FKAdd

namespace FKAdd

/-- The example state refuting the mutation-free part of claim C5: table f
(tid 1) and table r (tid 2, no indexes); the half-resolved constraint fk1
(oid 1) sits in r's incoming set with its owning-table pointer unresolved. -/
def c5State : FState :=
  ⟨[⟨1, "f", ⟨["a"], [], []⟩, [], [], true⟩,
    ⟨2, "r", ⟨["b"], [], []⟩, [], [1], false⟩],
   [⟨1, "fk1", "f", "r", ["a"], ["b"], none, some 2, none, none, false⟩]⟩

/-- The newly supplied constraint with the same identifier fk1. -/
def c5NewF : FConstraint :=
  ⟨2, "fk1", "f", "r", ["a"], ["b"], none, none, none, none, false⟩

/-- C5 counterexample: the call fails (no qualifying index in the
referenced table, error not ignorable), yet table r's incoming set has
permanently lost the stale cached constraint that was removed before the
index search: the tables are mutated on the failure path. -/
theorem c5_failure_mutation_counterexample :
    ((dict_foreign_add_to_cache ⟨fun a b => a == b, fun _ _ _ => true⟩
        none true false c5State c5NewF).map
      (fun p => (p.2, p.1.tables)) =
      some (true,
        [⟨1, "f", ⟨["a"], [], []⟩, [], [], true⟩,
         ⟨2, "r", ⟨["b"], [], []⟩, [], [], false⟩]))
    ∧ ([(⟨2, "r", ⟨["b"], [], []⟩, [], [], false⟩ : FTable)] ≠
        [(⟨2, "r", ⟨["b"], [], []⟩, [], [1], false⟩ : FTable)]) := by
  constructor
  · decide
  · decide

end FKAdd

namespace FKAdd

theorem find?_filter_keep {α : Type} (l : List α) (p q : α → Bool)
    (h : ∀ x, p x = true → q x = true) :
    (l.filter q).find? p = l.find? p := by
  induction l with
  | nil => rfl
  | cons a l ih =>
    by_cases hq : q a = true
    · rw [List.filter_cons_of_pos hq]
      by_cases hp : p a = true
      · rw [List.find?_cons_of_pos _ hp, List.find?_cons_of_pos _ hp]
      · rw [List.find?_cons_of_neg _ (by simpa using hp),
          List.find?_cons_of_neg _ (by simpa using hp), ih]
    · rw [List.filter_cons_of_neg (by simpa using hq), ih,
        List.find?_cons_of_neg _ (by
          intro hpa
          exact hq (h a hpa))]

theorem find?_map_pred {α : Type} (l : List α) (f : α → α) (p : α → Bool)
    (hp : ∀ x, p (f x) = p x) :
    (l.map f).find? p = (l.find? p).map f := by
  rw [List.find?_map]
  rw [show (p ∘ f) = p from funext hp]

theorem find?_append_none {α : Type} (l1 l2 : List α) (p : α → Bool)
    (h : l1.find? p = none) : (l1 ++ l2).find? p = l2.find? p := by
  induction l1 with
  | nil => rfl
  | cons a l ih =>
    have hpa : ¬ p a = true := by
      intro hpa
      rw [List.find?_cons_of_pos _ hpa] at h
      exact absurd h (by simp)
    rw [List.find?_cons_of_neg _ hpa] at h
    rw [List.cons_append, List.find?_cons_of_neg _ hpa, ih h]

/-- The live object identities. -/
def liveOids (st : FState) : List Nat := st.foreigns.map (fun g => g.oid)

theorem liveOids_free_self (st : FState) (x : Nat) :
    x ∉ liveOids (dict_foreign_free st x) := by
  simp only [liveOids, dict_foreign_free, List.mem_map]
  rintro ⟨g, hg, rfl⟩
  have := (List.mem_filter.mp hg).2
  simp at this

theorem mem_liveOids_free (st : FState) (x y : Nat) (h : y ≠ x) :
    y ∈ liveOids (dict_foreign_free st x) ↔ y ∈ liveOids st := by
  simp only [liveOids, dict_foreign_free, List.mem_map]
  constructor
  · rintro ⟨g, hg, rfl⟩
    exact ⟨g, (List.mem_filter.mp hg).1, rfl⟩
  · rintro ⟨g, hg, rfl⟩
    refine ⟨g, List.mem_filter.mpr ⟨hg, ?_⟩, rfl⟩
    simpa using h

theorem getForeign_congr (st1 st2 : FState) (o : Nat)
    (h : st1.foreigns = st2.foreigns) : getForeign st1 o = getForeign st2 o := by
  unfold getForeign
  rw [h]

theorem getForeign_free_ne (st : FState) (x o : Nat) (h : o ≠ x) :
    getForeign (dict_foreign_free st x) o = getForeign st o := by
  unfold getForeign dict_foreign_free
  exact find?_filter_keep _ _ _ (fun g hg => by
    simp only [beq_iff_eq] at hg
    rw [hg]
    exact decide_eq_true h)

theorem getForeign_oid (st : FState) (o : Nat) (g : FConstraint)
    (h : getForeign st o = some g) : g.oid = o := by
  have := List.find?_some h
  simpa using this

theorem getForeign_mem_liveOids (st : FState) (o : Nat) (g : FConstraint)
    (h : getForeign st o = some g) : o ∈ liveOids st := by
  have hm := List.mem_of_find?_eq_some h
  have ho := getForeign_oid st o g h
  simp only [liveOids, List.mem_map]
  exact ⟨g, hm, ho⟩

theorem getForeign_updateForeign (st : FState) (c o : Nat)
    (u : FConstraint → FConstraint) (hu : ∀ g, (u g).oid = g.oid) :
    getForeign (updateForeign st c u) o =
      (getForeign st o).map (fun g => if g.oid = c then u g else g) := by
  unfold getForeign updateForeign
  exact find?_map_pred _ _ _ (fun g => by
    by_cases hc : g.oid = c
    · simp [hc, hu]
    · simp [hc])

theorem liveOids_updateForeign (st : FState) (c : Nat)
    (u : FConstraint → FConstraint) (hu : ∀ g, (u g).oid = g.oid) :
    liveOids (updateForeign st c u) = liveOids st := by
  simp only [liveOids, updateForeign, List.map_map]
  apply List.map_congr_left
  intro g _
  by_cases hc : g.oid = c <;> simp [hc, hu]

theorem updateForeign_tables (st : FState) (c : Nat)
    (u : FConstraint → FConstraint) :
    (updateForeign st c u).tables = st.tables := rfl

theorem free_tables (st : FState) (x : Nat) :
    (dict_foreign_free st x).tables = st.tables := rfl

theorem updateTable_foreigns (st : FState) (tid : Nat) (u : FTable → FTable) :
    (updateTable st tid u).foreigns = st.foreigns := rfl

theorem addLive_tables (st : FState) (f : FConstraint) :
    (addLive st f).tables = st.tables := rfl

theorem mem_liveOids_addLive (st : FState) (f : FConstraint) :
    f.oid ∈ liveOids (addLive st f) := by
  simp [liveOids, addLive]

theorem insertRefSet_foreigns (st st2 : FState) (rtid oid : Nat)
    (fid : String) (h : insertRefSet st rtid oid fid = some st2) :
    st2.foreigns = st.foreigns := by
  unfold insertRefSet at h
  split at h
  · exact absurd h (by simp)
  · split at h
    · exact absurd h (by simp)
    · rw [← Option.some.inj h]
      rfl

theorem insertForSet_foreigns (st st2 : FState) (ftid oid : Nat)
    (fid : String) (h : insertForSet st ftid oid fid = some st2) :
    st2.foreigns = st.foreigns := by
  unfold insertForSet at h
  split at h
  · exact absurd h (by simp)
  · split at h
    · exact absurd h (by simp)
    · rw [← Option.some.inj h]
      rfl

theorem eraseRefSet_foreigns (st st2 : FState) (rtid : Nat) (fid : String)
    (h : eraseRefSet st rtid fid = some st2) : st2.foreigns = st.foreigns := by
  unfold eraseRefSet at h
  split at h
  · exact absurd h (by simp)
  · split at h
    · rw [← Option.some.inj h]
      rfl
    · exact absurd h (by simp)

theorem members_updateFirstTable (tid : Nat) (u : FTable → FTable)
    (l : List FTable) (t' : FTable) (h : t' ∈ updateFirstTable tid u l) :
    t' ∈ l ∨ ∃ t ∈ l, t' = u t := by
  induction l with
  | nil => exact absurd h (by simp [updateFirstTable])
  | cons a l ih =>
    rw [updateFirstTable] at h
    split at h
    · rcases List.mem_cons.mp h with rfl | h'
      · exact Or.inr ⟨a, List.mem_cons_self a l, rfl⟩
      · exact Or.inl (List.mem_cons_of_mem a h')
    · rcases List.mem_cons.mp h with rfl | h'
      · exact Or.inl (List.mem_cons_self _ _)
      · rcases ih h' with h'' | ⟨t, ht, rfl⟩
        · exact Or.inl (List.mem_cons_of_mem a h'')
        · exact Or.inr ⟨t, List.mem_cons_of_mem a ht, rfl⟩

end FKAdd

namespace FKAdd

theorem updateFirstTable_comp (tid : Nat) (u1 u2 : FTable → FTable)
    (l : List FTable) (hu1 : ∀ t, (u1 t).tid = t.tid) :
    updateFirstTable tid u2 (updateFirstTable tid u1 l) =
      updateFirstTable tid (fun t => u2 (u1 t)) l := by
  induction l with
  | nil => rfl
  | cons a l ih =>
    rw [updateFirstTable]
    by_cases ha : a.tid = tid
    · rw [if_pos ha, updateFirstTable, if_pos (by rw [hu1 a]; exact ha),
        updateFirstTable, if_pos ha]
    · rw [if_neg ha, updateFirstTable, if_neg ha, ih,
        updateFirstTable, if_neg ha]

theorem updateFirstTable_id_of_found (tid : Nat) (w : FTable → FTable)
    (l : List FTable) (t : FTable)
    (hf : l.find? (fun a => a.tid == tid) = some t) (hw : w t = t) :
    updateFirstTable tid w l = l := by
  induction l with
  | nil => exact absurd hf (by simp)
  | cons a l ih =>
    by_cases ha : a.tid = tid
    · rw [List.find?_cons_of_pos _ (by simpa using ha)] at hf
      rw [updateFirstTable, if_pos ha, Option.some.inj hf, hw]
    · rw [List.find?_cons_of_neg _ (by simpa using ha)] at hf
      rw [updateFirstTable, if_neg ha, ih hf]

theorem find?_updateFirstTable_self (tid : Nat) (u : FTable → FTable)
    (hu : ∀ a, (u a).tid = a.tid) (l : List FTable) :
    ∀ t : FTable, l.find? (fun a => a.tid == tid) = some t →
      (updateFirstTable tid u l).find? (fun a => a.tid == tid) =
        some (u t) := by
  induction l with
  | nil =>
    intro t hf
    exact absurd hf (by simp)
  | cons a l ih =>
    intro t hf
    by_cases ha : a.tid = tid
    · rw [List.find?_cons_of_pos _ (by simpa using ha)] at hf
      rw [updateFirstTable, if_pos ha,
        List.find?_cons_of_pos _ (by simp [hu a, ha]),
        Option.some.inj hf]
    · rw [List.find?_cons_of_neg _ (by simpa using ha)] at hf
      rw [updateFirstTable, if_neg ha,
        List.find?_cons_of_neg _ (by simpa using ha)]
      exact ih t hf

theorem findTableById_updateTable_self (st : FState) (tid : Nat)
    (u : FTable → FTable) (t : FTable) (hu : ∀ a, (u a).tid = a.tid)
    (hf : findTableById st tid = some t) :
    findTableById (updateTable st tid u) tid = some (u t) :=
  find?_updateFirstTable_self tid u hu st.tables t hf

theorem fidOf_congr (st1 st2 : FState) (h : st1.foreigns = st2.foreigns) :
    ∀ o, fidOf st1 o = fidOf st2 o := by
  intro o
  unfold fidOf
  rw [getForeign_congr st1 st2 o h]

theorem setFindId_congr (st1 st2 : FState) (set : List Nat) (fid : String)
    (h : st1.foreigns = st2.foreigns) :
    setFindId st1 set fid = setFindId st2 set fid := by
  unfold setFindId
  rw [show (fun o => fidOf st1 o == some fid) =
    (fun o => fidOf st2 o == some fid) from
    funext (fun o => by rw [fidOf_congr st1 st2 h o])]

end FKAdd

namespace FKAdd

theorem insert_erase_roundtrip (stU st2 : FState) (rtid oidc : Nat)
    (fid : String)
    (hi : insertRefSet stU rtid oidc fid = some st2)
    (hfid : fidOf stU oidc = some fid) :
    ∃ stE, eraseRefSet st2 rtid fid = some stE ∧ stE.tables = stU.tables := by
  unfold insertRefSet at hi
  split at hi
  · exact absurd hi (by simp)
  · rename_i t hft
    split at hi
    · exact absurd hi (by simp)
    · rename_i hguard
      have hnone : setFindId stU t.referencedSet fid = none :=
        Option.not_isSome_iff_eq_none.mp hguard
      have hst2 : st2 = updateTable stU rtid (fun u =>
          { u with referencedSet := u.referencedSet ++ [oidc] }) :=
        (Option.some.inj hi).symm
      have hfor : st2.foreigns = stU.foreigns := by
        rw [hst2]; rfl
      have hu1 : ∀ a : FTable,
          ((fun u : FTable =>
            { u with referencedSet := u.referencedSet ++ [oidc] })
            a).tid = a.tid := fun a => rfl
      have hft2 : findTableById st2 rtid = some
          { t with referencedSet := t.referencedSet ++ [oidc] } := by
        rw [hst2]
        exact findTableById_updateTable_self stU rtid _ t hu1 hft
      have hmem : setFindId st2
          (t.referencedSet ++ [oidc]) fid = some oidc := by
        rw [setFindId_congr st2 stU _ _ hfor]
        unfold setFindId at hnone ⊢
        rw [find?_append_none _ _ _ hnone]
        rw [List.find?_cons_of_pos _ (by rw [hfid]; simp)]
      have hpfalse : ∀ o ∈ t.referencedSet,
          (fidOf st2 o == some fid) = false := by
        intro o ho
        have h2 := List.find?_eq_none.mp hnone o ho
        rw [fidOf_congr st2 stU hfor o]
        simpa using h2
      refine ⟨updateTable st2 rtid (fun u =>
        { u with referencedSet :=
            (u.referencedSet.filter
              (fun o => !(fidOf st2 o == some fid))) }), ?_, ?_⟩
      · unfold eraseRefSet
        rw [hft2]
        dsimp only
        rw [if_pos (by rw [hmem]; rfl)]
      · have hqone : (!(fidOf st2 oidc == some fid)) = false := by
          rw [fidOf_congr st2 stU hfor oidc, hfid]
          simp
        show (updateTable st2 rtid (fun u =>
          { u with referencedSet := (u.referencedSet.filter
              (fun o => !(fidOf st2 o == some fid))) })).tables = stU.tables
        generalize hq : (fun o : Nat => !(fidOf st2 o == some fid)) = q
        have hqone' : q oidc = false := by rw [← hq]; exact hqone
        have hqkeep : ∀ o ∈ t.referencedSet, q o = true := by
          intro o ho
          rw [← hq]
          show (!(fidOf st2 o == some fid)) = true
          rw [hpfalse o ho]
          rfl
        show updateFirstTable rtid (fun u =>
          { u with referencedSet := u.referencedSet.filter q }) st2.tables
            = stU.tables
        rw [show st2.tables = updateFirstTable rtid (fun u : FTable =>
            { u with referencedSet := u.referencedSet ++ [oidc] }) stU.tables
          from by rw [hst2]; rfl]
        rw [updateFirstTable_comp rtid _ _ stU.tables hu1]
        apply updateFirstTable_id_of_found rtid _ stU.tables t hft
        show ({ t with referencedSet :=
            ((t.referencedSet ++ [oidc]).filter q) } : FTable) = t
        have hsing : List.filter q [oidc] = [] := by
          rw [List.filter_cons_of_neg (by simp [hqone'])]
          rfl
        rw [List.filter_append, hsing,
          List.filter_eq_self.mpr hqkeep, List.append_nil]

end FKAdd

namespace FKAdd

open FK

theorem refPhase_error (e : QEnv) (cc ig : Bool) (newOid : Nat)
    (st : FState) (cur : Nat) (rtid? : Option Nat) (st2 : FState) (a : Bool)
    (h : refPhase e cc ig newOid st cur rtid? = some (st2, true, a)) :
    st2 = (if cur = newOid then dict_foreign_free st newOid else st)
    ∧ a = false := by
  unfold refPhase at h
  split at h
  · simp at h
  · split at h
    · simp at h
    · split at h
      · simp at h
      · split at h
        · simp at h
        · split at h
          · simp only [Option.some.injEq, Prod.mk.injEq] at h
            exact ⟨h.1.symm, h.2.2.symm⟩
          · split at h
            · simp at h
            · simp at h

theorem refPhase_no_error (e : QEnv) (cc ig : Bool) (newOid : Nat)
    (st : FState) (cur : Nat) (rtid? : Option Nat) (st2 : FState)
    (aR : Bool)
    (h : refPhase e cc ig newOid st cur rtid? = some (st2, false, aR)) :
    (aR = false → st2 = st)
    ∧ (aR = true → ∃ rtid rt g, rtid? = some rtid
        ∧ getForeign st cur = some g ∧ g.referencedTable = none
        ∧ findTableById st rtid = some rt
        ∧ insertRefSet (updateForeign st cur (fun h' =>
            { h' with
                referencedTable := some rtid
                referencedIndex :=
                  (dict_foreign_find_index e rt.qt none
                    g.referencedCols g.foreignIndex cc false) }))
            rtid cur g.fid = some st2) := by
  cases rtid? with
  | none =>
    simp only [refPhase, Option.some.injEq, Prod.mk.injEq] at h
    exact ⟨fun _ => h.1.symm, fun ha => absurd (h.2.2.trans ha) (by simp)⟩
  | some rtid =>
    simp only [refPhase] at h
    cases hg : getForeign st cur with
    | none => rw [hg] at h; exact absurd h (by simp)
    | some g =>
      rw [hg] at h
      dsimp only at h
      by_cases hgrt : g.referencedTable ≠ none
      · rw [if_pos hgrt] at h
        simp only [Option.some.injEq, Prod.mk.injEq] at h
        exact ⟨fun _ => h.1.symm, fun ha => absurd (h.2.2.trans ha) (by simp)⟩
      · rw [if_neg hgrt] at h
        cases hfrt : findTableById st rtid with
        | none => rw [hfrt] at h; exact absurd h (by simp)
        | some rt =>
          rw [hfrt] at h
          dsimp only at h
          by_cases hcond : (dict_foreign_find_index e rt.qt none
              g.referencedCols g.foreignIndex cc false = none ∧ ig = false)
          · rw [if_pos hcond] at h
            simp only [Option.some.injEq, Prod.mk.injEq] at h
            exact ⟨fun _ => absurd h.2.1 (by simp),
              fun _ => absurd h.2.1 (by simp)⟩
          · rw [if_neg hcond] at h
            split at h
            · exact absurd h (by simp)
            · rename_i st3 hins
              simp only [Option.some.injEq, Prod.mk.injEq] at h
              refine ⟨fun ha => absurd (h.2.2.trans ha).symm (by simp), ?_⟩
              intro _
              refine ⟨rtid, rt, g, rfl, rfl, not_not.mp hgrt, hfrt, ?_⟩
              rw [hins, h.1]

theorem refPhase_preserves_ft (e : QEnv) (cc ig : Bool) (newOid : Nat)
    (st : FState) (cur : Nat) (rtid? : Option Nat) (st2 : FState)
    (aR : Bool)
    (h : refPhase e cc ig newOid st cur rtid? = some (st2, false, aR)) :
    (getForeign st2 cur).map (fun g => g.foreignTable) =
      (getForeign st cur).map (fun g => g.foreignTable) := by
  obtain ⟨hskip, hins⟩ := refPhase_no_error e cc ig newOid st cur rtid? st2
    aR h
  cases aR with
  | false => rw [hskip rfl]
  | true =>
    obtain ⟨rtid, rt, g, _, hg, _, _, hinsert⟩ := hins rfl
    have hfor : st2.foreigns = (updateForeign st cur (fun h' =>
        { h' with
            referencedTable := some rtid
            referencedIndex :=
              (dict_foreign_find_index e rt.qt none
                g.referencedCols g.foreignIndex cc false) })).foreigns :=
      insertRefSet_foreigns _ _ _ _ _ hinsert
    have hu : ∀ g0 : FConstraint, ((fun h' : FConstraint =>
        { h' with
            referencedTable := some rtid
            referencedIndex := (dict_foreign_find_index e rt.qt none
              g.referencedCols g.foreignIndex cc false) }) g0).oid
          = g0.oid := fun g0 => rfl
    rw [getForeign_congr st2 _ cur hfor,
      getForeign_updateForeign st cur cur _ hu, hg]
    have hoid : g.oid = cur := getForeign_oid st cur g hg
    simp [hoid]

theorem dedupePhase_cases (st0 : FState) (ft? : Option Nat) (newOid : Nat)
    (fic? : Option Nat) (st1 : FState) (cur : Nat)
    (h : dedupePhase st0 ft? newOid fic? = some (st1, cur)) :
    (cur = newOid ∧ (st1 = st0 ∨ ∃ o, o ≠ newOid ∧
        st1 = dict_foreign_remove_from_cache st0 o))
    ∨ (cur ≠ newOid ∧ st1 = dict_foreign_free st0 newOid
        ∧ ∃ g, getForeign st0 cur = some g ∧ ft? = g.foreignTable) := by
  cases fic? with
  | none =>
    simp only [dedupePhase, Option.some.injEq, Prod.mk.injEq] at h
    exact Or.inl ⟨h.2.symm, Or.inl h.1.symm⟩
  | some o =>
    simp only [dedupePhase] at h
    by_cases ho : o = newOid
    · rw [if_pos ho] at h
      simp only [Option.some.injEq, Prod.mk.injEq] at h
      exact Or.inl ⟨h.2.symm.trans ho, Or.inl h.1.symm⟩
    · rw [if_neg ho] at h
      cases hg : getForeign st0 o with
      | none => rw [hg] at h; exact absurd h (by simp)
      | some g =>
        rw [hg] at h
        dsimp only at h
        by_cases hft : ft? ≠ g.foreignTable
        · rw [if_pos hft] at h
          simp only [Option.some.injEq, Prod.mk.injEq] at h
          exact Or.inl ⟨h.2.symm, Or.inr ⟨o, ho, h.1.symm⟩⟩
        · rw [if_neg hft] at h
          simp only [Option.some.injEq, Prod.mk.injEq] at h
          refine Or.inr ⟨?_, h.1.symm, g, ?_, not_not.mp hft⟩
          · rw [← h.2]
            exact ho
          · rw [← h.2]
            exact hg

theorem forPhase_error (e : QEnv) (ov : Option (List String)) (cc ig : Bool)
    (newOid : Nat) (st : FState) (cur : Nat) (ftid? rtid? : Option Nat)
    (addedRef : Bool) (st3 : FState) (aF : Bool)
    (h : forPhase e ov cc ig newOid st cur ftid? rtid? addedRef =
      some (st3, true, aF)) :
    aF = false ∧
    ((cur = newOid ∧
        ((addedRef = false ∧ st3 = dict_foreign_free st newOid)
          ∨ (addedRef = true ∧ ∃ rtid stE g3, rtid? = some rtid
              ∧ getForeign st cur = some g3
              ∧ eraseRefSet st rtid g3.fid = some stE
              ∧ st3 = dict_foreign_free stE newOid)))
      ∨ (cur ≠ newOid ∧ st3 = st
          ∧ ∃ ftid g3, ftid? = some ftid ∧ getForeign st cur = some g3
              ∧ g3.foreignTable = none)) := by
  cases ftid? with
  | none => simp only [forPhase] at h; exact absurd h (by simp)
  | some ftid =>
    simp only [forPhase] at h
    cases hg : getForeign st cur with
    | none => rw [hg] at h; exact absurd h (by simp)
    | some g =>
      rw [hg] at h
      dsimp only at h
      by_cases hgft : g.foreignTable ≠ none
      · rw [if_pos hgft] at h
        exact absurd h (by simp)
      · rw [if_neg hgft] at h
        cases hfft : findTableById st ftid with
        | none => rw [hfft] at h; exact absurd h (by simp)
        | some ft =>
          rw [hfft] at h
          dsimp only at h
          by_cases hcond : (dict_foreign_find_index e ft.qt ov
              g.foreignCols g.referencedIndex cc g.setNullFlag = none
              ∧ ig = false)
          · rw [if_pos hcond] at h
            by_cases hcur : cur = newOid
            · rw [if_pos hcur] at h
              cases haR : addedRef with
              | false =>
                rw [haR] at h
                simp only [if_neg (by simp : ¬ (false : Bool) = true)] at h
                simp only [Option.some.injEq, Prod.mk.injEq] at h
                exact ⟨h.2.2.symm, Or.inl ⟨hcur, Or.inl ⟨rfl, h.1.symm⟩⟩⟩
              | true =>
                rw [haR] at h
                cases hrt : rtid? with
                | none => rw [hrt] at h; exact absurd h (by simp)
                | some rtid =>
                  rw [hrt] at h
                  dsimp only at h
                  cases hse : eraseRefSet st rtid g.fid with
                  | none => rw [hse] at h; exact absurd h (by simp)
                  | some stE =>
                    rw [hse] at h
                    rw [if_pos (rfl : (true : Bool) = true)] at h
                    simp only [Option.some.injEq, Prod.mk.injEq] at h
                    exact ⟨h.2.2.symm, Or.inl ⟨hcur, Or.inr ⟨rfl,
                      rtid, stE, g, rfl, rfl, hse, h.1.symm⟩⟩⟩
            · rw [if_neg hcur] at h
              simp only [Option.some.injEq, Prod.mk.injEq] at h
              exact ⟨h.2.2.symm, Or.inr ⟨hcur, h.1.symm,
                ftid, g, rfl, rfl, not_not.mp hgft⟩⟩
          · rw [if_neg hcond] at h
            split at h
            · exact absurd h (by simp)
            · exact absurd h (by simp)

end FKAdd

namespace FKAdd

open FK

theorem liveOids_congr (st2 st : FState) (h : st2.foreigns = st.foreigns) :
    liveOids st2 = liveOids st := by
  unfold liveOids
  rw [h]

theorem liveOids_free_sub (st : FState) (x y : Nat)
    (h : y ∈ liveOids (dict_foreign_free st x)) : y ∈ liveOids st := by
  simp only [liveOids, dict_foreign_free, List.mem_map] at h ⊢
  obtain ⟨g, hg, rfl⟩ := h
  exact ⟨g, (List.mem_filter.mp hg).1, rfl⟩

theorem liveOids_remove_self (st : FState) (o : Nat) (g : FConstraint)
    (hg : getForeign st o = some g) :
    o ∉ liveOids (dict_foreign_remove_from_cache st o) := by
  unfold dict_foreign_remove_from_cache
  rw [hg]
  exact liveOids_free_self _ o

theorem mem_liveOids_remove (st : FState) (o y : Nat) (h : y ≠ o)
    (hy : y ∈ liveOids st) :
    y ∈ liveOids (dict_foreign_remove_from_cache st o) := by
  unfold dict_foreign_remove_from_cache
  cases hg : getForeign st o with
  | none => exact hy
  | some g =>
    apply (mem_liveOids_free _ o y h).mpr
    rw [liveOids_congr _ st]
    · exact hy
    · cases g.referencedTable <;> cases g.foreignTable <;> rfl

theorem liveOids_remove_sub (st : FState) (o y : Nat)
    (h : y ∈ liveOids (dict_foreign_remove_from_cache st o)) :
    y ∈ liveOids st := by
  unfold dict_foreign_remove_from_cache at h
  cases hg : getForeign st o with
  | none => rw [hg] at h; exact h
  | some g =>
    rw [hg] at h
    have h2 := liveOids_free_sub _ o y h
    rw [liveOids_congr _ st] at h2
    · exact h2
    · cases g.referencedTable <;> cases g.foreignTable <;> rfl

theorem refPhase_liveOids_no_error (e : QEnv) (cc ig : Bool) (newOid : Nat)
    (st : FState) (cur : Nat) (rtid? : Option Nat) (st2 : FState)
    (aR : Bool)
    (h : refPhase e cc ig newOid st cur rtid? = some (st2, false, aR)) :
    liveOids st2 = liveOids st := by
  obtain ⟨hskip, hins⟩ := refPhase_no_error e cc ig newOid st cur rtid? st2
    aR h
  cases aR with
  | false => rw [hskip rfl]
  | true =>
    obtain ⟨rtid, rt, g, _, _, _, _, hinsert⟩ := hins rfl
    rw [liveOids_congr st2 _ (insertRefSet_foreigns _ _ _ _ _ hinsert)]
    exact liveOids_updateForeign st cur _ (fun g0 => rfl)

theorem refPhase_liveOids_sub (e : QEnv) (cc ig : Bool) (newOid : Nat)
    (st : FState) (cur : Nat) (rtid? : Option Nat) (st2 : FState)
    (err aR : Bool)
    (h : refPhase e cc ig newOid st cur rtid? = some (st2, err, aR)) :
    ∀ y, y ∈ liveOids st2 → y ∈ liveOids st := by
  intro y hy
  cases err with
  | true =>
    obtain ⟨hst2, _⟩ := refPhase_error e cc ig newOid st cur rtid? st2 aR h
    rw [hst2] at hy
    by_cases hc : cur = newOid
    · rw [if_pos hc] at hy
      exact liveOids_free_sub st newOid y hy
    · rw [if_neg hc] at hy
      exact hy
  | false =>
    rw [refPhase_liveOids_no_error e cc ig newOid st cur rtid? st2 aR h]
      at hy
    exact hy

theorem refPhase_liveOids_pres (e : QEnv) (cc ig : Bool) (newOid : Nat)
    (st : FState) (cur : Nat) (rtid? : Option Nat) (st2 : FState)
    (err aR : Bool) (y : Nat) (hy : y ≠ newOid)
    (h : refPhase e cc ig newOid st cur rtid? = some (st2, err, aR))
    (hmem : y ∈ liveOids st) : y ∈ liveOids st2 := by
  cases err with
  | true =>
    obtain ⟨hst2, _⟩ := refPhase_error e cc ig newOid st cur rtid? st2 aR h
    rw [hst2]
    by_cases hc : cur = newOid
    · rw [if_pos hc]
      exact (mem_liveOids_free st newOid y hy).mpr hmem
    · rw [if_neg hc]
      exact hmem
  | false =>
    rw [refPhase_liveOids_no_error e cc ig newOid st cur rtid? st2 aR h]
    exact hmem

end FKAdd

namespace FKAdd

open FK

theorem forPhase_no_error (e : QEnv) (ov : Option (List String))
    (cc ig : Bool) (newOid : Nat) (st : FState) (cur : Nat)
    (ftid? rtid? : Option Nat) (addedRef : Bool) (st3 : FState) (aF : Bool)
    (h : forPhase e ov cc ig newOid st cur ftid? rtid? addedRef =
      some (st3, false, aF)) :
    (aF = false → st3 = st)
    ∧ (aF = true → ∃ ftid ft g, ftid? = some ftid
        ∧ getForeign st cur = some g ∧ g.foreignTable = none
        ∧ findTableById st ftid = some ft
        ∧ insertForSet (updateForeign st cur (fun h' =>
            { h' with
                foreignTable := some ftid
                foreignIndex :=
                  (dict_foreign_find_index e ft.qt ov
                    g.foreignCols g.referencedIndex cc g.setNullFlag) }))
            ftid cur g.fid = some st3) := by
  cases ftid? with
  | none =>
    simp only [forPhase, Option.some.injEq, Prod.mk.injEq] at h
    exact ⟨fun _ => h.1.symm, fun ha => absurd (h.2.2.trans ha) (by simp)⟩
  | some ftid =>
    simp only [forPhase] at h
    cases hg : getForeign st cur with
    | none => rw [hg] at h; exact absurd h (by simp)
    | some g =>
      rw [hg] at h
      dsimp only at h
      by_cases hgft : g.foreignTable ≠ none
      · rw [if_pos hgft] at h
        simp only [Option.some.injEq, Prod.mk.injEq] at h
        exact ⟨fun _ => h.1.symm, fun ha => absurd (h.2.2.trans ha) (by simp)⟩
      · rw [if_neg hgft] at h
        cases hfft : findTableById st ftid with
        | none => rw [hfft] at h; exact absurd h (by simp)
        | some ft =>
          rw [hfft] at h
          dsimp only at h
          by_cases hcond : (dict_foreign_find_index e ft.qt ov
              g.foreignCols g.referencedIndex cc g.setNullFlag = none
              ∧ ig = false)
          · rw [if_pos hcond] at h
            by_cases hcur : cur = newOid
            · rw [if_pos hcur] at h
              split at h
              · exact absurd h (by simp)
              · simp at h
            · rw [if_neg hcur] at h
              simp at h
          · rw [if_neg hcond] at h
            split at h
            · exact absurd h (by simp)
            · rename_i st4 hins
              simp only [Option.some.injEq, Prod.mk.injEq] at h
              refine ⟨fun ha => absurd (h.2.2.trans ha).symm (by simp), ?_⟩
              intro _
              refine ⟨ftid, ft, g, rfl, rfl, not_not.mp hgft, hfft, ?_⟩
              rw [hins, h.1]

theorem forPhase_liveOids_no_error (e : QEnv) (ov : Option (List String))
    (cc ig : Bool) (newOid : Nat) (st : FState) (cur : Nat)
    (ftid? rtid? : Option Nat) (addedRef : Bool) (st3 : FState) (aF : Bool)
    (h : forPhase e ov cc ig newOid st cur ftid? rtid? addedRef =
      some (st3, false, aF)) :
    liveOids st3 = liveOids st := by
  obtain ⟨hskip, hins⟩ := forPhase_no_error e ov cc ig newOid st cur
    ftid? rtid? addedRef st3 aF h
  cases aF with
  | false => rw [hskip rfl]
  | true =>
    obtain ⟨ftid, ft, g, _, _, _, _, hinsert⟩ := hins rfl
    rw [liveOids_congr st3 _ (insertForSet_foreigns _ _ _ _ _ hinsert)]
    exact liveOids_updateForeign st cur _ (fun g0 => rfl)

theorem forPhase_liveOids_sub (e : QEnv) (ov : Option (List String))
    (cc ig : Bool) (newOid : Nat) (st : FState) (cur : Nat)
    (ftid? rtid? : Option Nat) (addedRef : Bool) (st3 : FState)
    (err aF : Bool)
    (h : forPhase e ov cc ig newOid st cur ftid? rtid? addedRef =
      some (st3, err, aF)) :
    ∀ y, y ∈ liveOids st3 → y ∈ liveOids st := by
  intro y hy
  cases err with
  | true =>
    obtain ⟨_, hcases⟩ := forPhase_error e ov cc ig newOid st cur ftid?
      rtid? addedRef st3 aF h
    rcases hcases with ⟨_, hc⟩ | ⟨_, hst, _⟩
    · rcases hc with ⟨_, hst⟩ | ⟨_, rtid, stE, g3, _, _, hse, hst⟩
      · rw [hst] at hy
        exact liveOids_free_sub st newOid y hy
      · rw [hst] at hy
        have h2 := liveOids_free_sub stE newOid y hy
        rw [liveOids_congr stE st (eraseRefSet_foreigns st stE rtid _ hse)]
          at h2
        exact h2
    · rw [hst] at hy
      exact hy
  | false =>
    rw [forPhase_liveOids_no_error e ov cc ig newOid st cur ftid? rtid?
      addedRef st3 aF h] at hy
    exact hy

theorem forPhase_liveOids_pres (e : QEnv) (ov : Option (List String))
    (cc ig : Bool) (newOid : Nat) (st : FState) (cur : Nat)
    (ftid? rtid? : Option Nat) (addedRef : Bool) (st3 : FState)
    (err aF : Bool) (y : Nat) (hy : y ≠ newOid)
    (h : forPhase e ov cc ig newOid st cur ftid? rtid? addedRef =
      some (st3, err, aF))
    (hmem : y ∈ liveOids st) : y ∈ liveOids st3 := by
  cases err with
  | true =>
    obtain ⟨_, hcases⟩ := forPhase_error e ov cc ig newOid st cur ftid?
      rtid? addedRef st3 aF h
    rcases hcases with ⟨_, hc⟩ | ⟨_, hst, _⟩
    · rcases hc with ⟨_, hst⟩ | ⟨_, rtid, stE, g3, _, _, hse, hst⟩
      · rw [hst]
        exact (mem_liveOids_free st newOid y hy).mpr hmem
      · rw [hst]
        apply (mem_liveOids_free stE newOid y hy).mpr
        rw [liveOids_congr stE st (eraseRefSet_foreigns st stE rtid _ hse)]
        exact hmem
    · rw [hst]
      exact hmem
  | false =>
    rw [forPhase_liveOids_no_error e ov cc ig newOid st cur ftid? rtid?
      addedRef st3 aF h]
    exact hmem

end FKAdd

namespace FKAdd

open FK

/-- The object identity x appears in no table's constraint sets. -/
def notInSets (st : FState) (x : Nat) : Prop :=
  ∀ t ∈ st.tables, x ∉ t.foreignSet ∧ x ∉ t.referencedSet

theorem notInSets_tables_eq (st2 st : FState) (x : Nat)
    (h : st2.tables = st.tables) (hn : notInSets st x) : notInSets st2 x := by
  intro t ht
  rw [h] at ht
  exact hn t ht

theorem notInSets_updateTable (st : FState) (x tid : Nat)
    (u : FTable → FTable)
    (hu : ∀ t : FTable, (x ∉ t.foreignSet ∧ x ∉ t.referencedSet) →
      (x ∉ (u t).foreignSet ∧ x ∉ (u t).referencedSet))
    (hn : notInSets st x) : notInSets (updateTable st tid u) x := by
  intro t' ht'
  rcases members_updateFirstTable tid u st.tables t' ht' with hmem
    | ⟨t, ht, rfl⟩
  · exact hn t' hmem
  · exact hu t (hn t ht)

theorem notInSets_insertRefSet (st st2 : FState) (x rtid oid : Nat)
    (fid : String) (hx : x ≠ oid)
    (hi : insertRefSet st rtid oid fid = some st2)
    (hn : notInSets st x) : notInSets st2 x := by
  unfold insertRefSet at hi
  split at hi
  · exact absurd hi (by simp)
  · split at hi
    · exact absurd hi (by simp)
    · rw [← Option.some.inj hi]
      apply notInSets_updateTable st x rtid _ ?_ hn
      intro t ⟨hf, hr⟩
      refine ⟨hf, ?_⟩
      simp only [List.mem_append, List.mem_singleton]
      rintro (h1 | h1)
      · exact hr h1
      · exact hx h1

theorem notInSets_insertForSet (st st2 : FState) (x ftid oid : Nat)
    (fid : String) (hx : x ≠ oid)
    (hi : insertForSet st ftid oid fid = some st2)
    (hn : notInSets st x) : notInSets st2 x := by
  unfold insertForSet at hi
  split at hi
  · exact absurd hi (by simp)
  · split at hi
    · exact absurd hi (by simp)
    · rw [← Option.some.inj hi]
      apply notInSets_updateTable st x ftid _ ?_ hn
      intro t ⟨hf, hr⟩
      refine ⟨?_, hr⟩
      simp only [List.mem_append, List.mem_singleton]
      rintro (h1 | h1)
      · exact hf h1
      · exact hx h1

theorem notInSets_eraseRefSet (st st2 : FState) (x rtid : Nat)
    (fid : String) (hi : eraseRefSet st rtid fid = some st2)
    (hn : notInSets st x) : notInSets st2 x := by
  unfold eraseRefSet at hi
  split at hi
  · exact absurd hi (by simp)
  · split at hi
    · rw [← Option.some.inj hi]
      apply notInSets_updateTable st x rtid _ ?_ hn
      intro t ⟨hf, hr⟩
      exact ⟨hf, fun hmem => hr (List.mem_of_mem_filter hmem)⟩
    · exact absurd hi (by simp)

theorem notInSets_updateForeign (st : FState) (x c : Nat)
    (u : FConstraint → FConstraint) (hn : notInSets st x) :
    notInSets (updateForeign st c u) x :=
  notInSets_tables_eq _ st x rfl hn

theorem notInSets_free (st : FState) (x c : Nat) (hn : notInSets st x) :
    notInSets (dict_foreign_free st c) x :=
  notInSets_tables_eq _ st x rfl hn

theorem notInSets_preventEviction (st : FState) (x tid : Nat)
    (hn : notInSets st x) : notInSets (preventEviction st tid) x :=
  notInSets_updateTable st x tid _ (fun _ ht => ht) hn

theorem refPhase_notInSets (e : QEnv) (cc ig : Bool) (newOid : Nat)
    (st : FState) (cur : Nat) (rtid? : Option Nat) (st2 : FState)
    (err aR : Bool) (x : Nat) (hx : x ≠ cur)
    (h : refPhase e cc ig newOid st cur rtid? = some (st2, err, aR))
    (hn : notInSets st x) : notInSets st2 x := by
  cases err with
  | true =>
    obtain ⟨hst2, _⟩ := refPhase_error e cc ig newOid st cur rtid? st2 aR h
    rw [hst2]
    by_cases hc : cur = newOid
    · rw [if_pos hc]
      exact notInSets_free st x newOid hn
    · rw [if_neg hc]
      exact hn
  | false =>
    obtain ⟨hskip, hins⟩ := refPhase_no_error e cc ig newOid st cur rtid?
      st2 aR h
    cases aR with
    | false => rw [hskip rfl]; exact hn
    | true =>
      obtain ⟨rtid, rt, g, _, _, _, _, hinsert⟩ := hins rfl
      exact notInSets_insertRefSet _ st2 x rtid cur g.fid hx hinsert
        (notInSets_updateForeign st x cur _ hn)

theorem forPhase_notInSets (e : QEnv) (ov : Option (List String))
    (cc ig : Bool) (newOid : Nat) (st : FState) (cur : Nat)
    (ftid? rtid? : Option Nat) (addedRef : Bool) (st3 : FState)
    (err aF : Bool) (x : Nat) (hx : x ≠ cur)
    (h : forPhase e ov cc ig newOid st cur ftid? rtid? addedRef =
      some (st3, err, aF))
    (hn : notInSets st x) : notInSets st3 x := by
  cases err with
  | true =>
    obtain ⟨_, hcases⟩ := forPhase_error e ov cc ig newOid st cur ftid?
      rtid? addedRef st3 aF h
    rcases hcases with ⟨_, hc⟩ | ⟨_, hst, _⟩
    · rcases hc with ⟨_, hst⟩ | ⟨_, rtid, stE, g3, _, _, hse, hst⟩
      · rw [hst]
        exact notInSets_free st x newOid hn
      · rw [hst]
        exact notInSets_free stE x newOid
          (notInSets_eraseRefSet st stE x rtid g3.fid hse hn)
    · rw [hst]
      exact hn
  | false =>
    obtain ⟨hskip, hins⟩ := forPhase_no_error e ov cc ig newOid st cur
      ftid? rtid? addedRef st3 aF h
    cases aF with
    | false => rw [hskip rfl]; exact hn
    | true =>
      obtain ⟨ftid, ft, g, _, _, _, _, hinsert⟩ := hins rfl
      exact notInSets_insertForSet _ st3 x ftid cur g.fid hx hinsert
        (notInSets_updateForeign st x cur _ hn)

end FKAdd

namespace FKAdd

open FK

/-- C5 (amended): when dict_foreign_add_to_cache fails with
DB_CANNOT_ADD_CONSTRAINT, the resulting tables are exactly those left by
the duplicate-identifier block (so the only table mutation that can survive
a failure is the prior removal of a stale equal-identifier constraint whose
owning-table pointer mismatched): the insertion into the referenced table's
incoming set performed earlier in the same call has been erased again, and
the newly supplied constraint object is freed rather than left installed. -/
theorem c5_error_rolls_back (e : QEnv) (ov : Option (List String))
    (cc ig : Bool) (st : FState) (newF : FConstraint) (st' st1 : FState)
    (cur : Nat)
    (hadd : dict_foreign_add_to_cache e ov cc ig st newF = some (st', true))
    (hded : dedupePhase (addLive st newF)
        ((findTable (addLive st newF) newF.foreignTableName).map
          (fun t => t.tid))
        newF.oid (resolveFic (addLive st newF) newF) = some (st1, cur)) :
    st'.tables = st1.tables ∧ newF.oid ∉ liveOids st' := by
  simp only [dict_foreign_add_to_cache] at hadd
  split at hadd
  · exact absurd hadd (by simp)
  · rw [hded] at hadd
    dsimp only at hadd
    cases hrp : refPhase e cc ig newF.oid st1 cur
        ((findTable (addLive st newF) newF.referencedTableName).map
          (fun t => t.tid)) with
    | none => rw [hrp] at hadd; exact absurd hadd (by simp)
    | some p =>
      obtain ⟨st2, refErr, aR⟩ := p
      rw [hrp] at hadd
      dsimp only at hadd
      cases refErr with
      | true =>
        rw [if_pos rfl] at hadd
        simp only [Option.some.injEq, Prod.mk.injEq] at hadd
        obtain ⟨hst2, _⟩ := refPhase_error e cc ig newF.oid st1 cur _ st2
          aR hrp
        rw [← hadd.1, hst2]
        by_cases hc : cur = newF.oid
        · rw [if_pos hc]
          exact ⟨free_tables st1 newF.oid, liveOids_free_self st1 newF.oid⟩
        · rw [if_neg hc]
          rcases dedupePhase_cases _ _ _ _ st1 cur hded with ⟨hcn, _⟩
            | ⟨_, hst1, _⟩
          · exact absurd hcn hc
          · rw [hst1]
            exact ⟨rfl, liveOids_free_self _ newF.oid⟩
      | false =>
        rw [if_neg (by simp)] at hadd
        cases hfp : forPhase e ov cc ig newF.oid st2 cur
            ((findTable (addLive st newF) newF.foreignTableName).map
              (fun t => t.tid))
            ((findTable (addLive st newF) newF.referencedTableName).map
              (fun t => t.tid)) aR with
        | none => rw [hfp] at hadd; exact absurd hadd (by simp)
        | some q =>
          obtain ⟨st3, forErr, aF⟩ := q
          rw [hfp] at hadd
          dsimp only at hadd
          cases forErr with
          | false => rw [if_neg (by simp)] at hadd; exact absurd hadd (by simp)
          | true =>
            rw [if_pos rfl] at hadd
            simp only [Option.some.injEq, Prod.mk.injEq] at hadd
            obtain ⟨_, hcases⟩ := forPhase_error e ov cc ig newF.oid st2 cur
              _ _ aR st3 aF hfp
            rcases hcases with ⟨hcur, hc⟩ | ⟨hcur, hst3, ftid, g3, hftq,
              hg3, hg3ft⟩
            · rcases hc with ⟨haR, hst3⟩ | ⟨haR, rtid, stE, g3, hrtq, hg3,
                hse, hst3⟩
              · obtain ⟨hskip, _⟩ := refPhase_no_error e cc ig newF.oid st1
                  cur _ st2 aR hrp
                rw [← hadd.1, hst3, hskip haR]
                exact ⟨free_tables st1 newF.oid,
                  liveOids_free_self st1 newF.oid⟩
              · obtain ⟨_, hins⟩ := refPhase_no_error e cc ig newF.oid st1
                  cur _ st2 aR hrp
                obtain ⟨rtid', rt, g, hrtq', hgst1, hgrt, hfrt, hinsert⟩ :=
                  hins haR
                have hrteq : rtid = rtid' := by
                  rw [hrtq] at hrtq'
                  exact Option.some.inj hrtq'
                subst hrteq
                have hfor2 : st2.foreigns = (updateForeign st1 cur (fun h' =>
                    { h' with
                        referencedTable := some rtid
                        referencedIndex :=
                          (dict_foreign_find_index e rt.qt none
                            g.referencedCols g.foreignIndex cc
                            false) })).foreigns :=
                  insertRefSet_foreigns _ _ _ _ _ hinsert
                have hoid : g.oid = cur := getForeign_oid st1 cur g hgst1
                have hu : ∀ g1 : FConstraint, ((fun h' : FConstraint =>
                    { h' with
                        referencedTable := some rtid
                        referencedIndex :=
                          (dict_foreign_find_index e rt.qt none
                            g.referencedCols g.foreignIndex cc
                            false) }) g1).oid = g1.oid := fun g1 => rfl
                have hg2 : getForeign st2 cur = some
                    ({ g with
                        referencedTable := some rtid
                        referencedIndex :=
                          (dict_foreign_find_index e rt.qt none
                            g.referencedCols g.foreignIndex cc false) }) := by
                  rw [getForeign_congr st2 _ cur hfor2,
                    getForeign_updateForeign st1 cur cur _ hu, hgst1]
                  simp [hoid]
                have hg3eq : g3 = { g with
                    referencedTable := some rtid
                    referencedIndex :=
                      (dict_foreign_find_index e rt.qt none
                        g.referencedCols g.foreignIndex cc false) } := by
                  rw [hg3] at hg2
                  exact Option.some.inj hg2
                have hfid3 : g3.fid = g.fid := by rw [hg3eq]
                have hfidU : fidOf (updateForeign st1 cur (fun h' =>
                    { h' with
                        referencedTable := some rtid
                        referencedIndex :=
                          (dict_foreign_find_index e rt.qt none
                            g.referencedCols g.foreignIndex cc
                            false) })) cur = some g.fid := by
                  unfold fidOf
                  rw [getForeign_updateForeign st1 cur cur _ hu, hgst1]
                  simp [hoid]
                obtain ⟨stE', hse', htab⟩ := insert_erase_roundtrip _ st2
                  rtid cur g.fid hinsert hfidU
                rw [hfid3] at hse
                have hstEeq : stE = stE' := by
                  rw [hse] at hse'
                  exact Option.some.inj hse'
                rw [← hadd.1, hst3, hstEeq]
                refine ⟨?_, liveOids_free_self stE' newF.oid⟩
                rw [free_tables stE' newF.oid, htab]
                rfl
            · exfalso
              rcases dedupePhase_cases _ _ _ _ st1 cur hded with ⟨hcn, _⟩
                | ⟨_, hst1, g0, hgst0, hftq0⟩
              · exact hcur hcn
              · have hgst1 : getForeign st1 cur = some g0 := by
                  rw [hst1]
                  rw [getForeign_free_ne _ newF.oid cur hcur]
                  exact hgst0
                have hpres := refPhase_preserves_ft e cc ig newF.oid st1 cur
                  _ st2 aR hrp
                rw [hg3, hgst1] at hpres
                simp only [Option.map_some'] at hpres
                have : g3.foreignTable = g0.foreignTable :=
                  Option.some.inj hpres
                rw [hg3ft] at this
                rw [hftq, ← this] at hftq0
                exact absurd hftq0 (by simp)

end FKAdd

namespace FKAdd

open FK

/-- Tables and foreigns left by the failing C5 call on the example state. -/
def c5StW : FState :=
  ⟨[⟨1, "f", ⟨["a"], [], []⟩, [], [], true⟩,
    ⟨2, "r", ⟨["b"], [], []⟩, [], [], false⟩], []⟩

/-- State after the duplicate-identifier block on the example state. -/
def c5St1 : FState :=
  ⟨[⟨1, "f", ⟨["a"], [], []⟩, [], [], true⟩,
    ⟨2, "r", ⟨["b"], [], []⟩, [], [], false⟩],
   [⟨2, "fk1", "f", "r", ["a"], ["b"], none, none, none, none, false⟩]⟩

theorem c5_error_rolls_back_witness :
    c5StW.tables = c5St1.tables ∧ c5NewF.oid ∉ liveOids c5StW :=
  c5_error_rolls_back ⟨fun a b => a == b, fun _ _ _ => true⟩ none true false
    c5State c5NewF c5StW c5St1 2 (by decide) (by decide)

end FKAdd

namespace FKAdd

open FK

theorem addCache_tail_facts (e : QEnv) (ov : Option (List String))
    (cc ig : Bool) (st : FState) (newF : FConstraint) (st' : FState)
    (err : Bool) (st1 : FState) (cur : Nat) (st2 : FState) (aR : Bool)
    (st3 : FState) (aF : Bool)
    (hadd : dict_foreign_add_to_cache e ov cc ig st newF = some (st', err))
    (hded : dedupePhase (addLive st newF)
        ((findTable (addLive st newF) newF.foreignTableName).map
          (fun t => t.tid)) newF.oid
        (resolveFic (addLive st newF) newF) = some (st1, cur))
    (hrp : refPhase e cc ig newF.oid st1 cur
        ((findTable (addLive st newF) newF.referencedTableName).map
          (fun t => t.tid)) = some (st2, false, aR))
    (hfp : forPhase e ov cc ig newF.oid st2 cur
        ((findTable (addLive st newF) newF.foreignTableName).map
          (fun t => t.tid))
        ((findTable (addLive st newF) newF.referencedTableName).map
          (fun t => t.tid)) aR = some (st3, false, aF)) :
    st'.foreigns = st3.foreigns ∧ err = false ∧
      (∀ x, notInSets st3 x → notInSets st' x) := by
  simp only [dict_foreign_add_to_cache] at hadd
  split at hadd
  · exact absurd hadd (by simp)
  · rw [hded] at hadd
    dsimp only at hadd
    rw [hrp] at hadd
    dsimp only at hadd
    rw [if_neg (show ¬(false = true) from by simp)] at hadd
    rw [hfp] at hadd
    dsimp only at hadd
    rw [if_neg (show ¬(false = true) from by simp)] at hadd
    cases aR with
    | false =>
      rw [if_neg (show ¬(false = true) from by simp)] at hadd
      cases aF with
      | false =>
        rw [if_neg (show ¬(false = true) from by simp)] at hadd
        simp only [Option.some.injEq, Prod.mk.injEq] at hadd
        obtain ⟨h1, h2⟩ := hadd
        refine ⟨by rw [← h1], h2.symm, fun x hx => ?_⟩
        rw [← h1]
        exact hx
      | true =>
        rw [if_pos (show (true = true) from rfl)] at hadd
        cases hft2 : findTable (addLive st newF) newF.foreignTableName with
        | none =>
          rw [hft2] at hadd
          dsimp only at hadd
          simp only [Option.some.injEq, Prod.mk.injEq] at hadd
          obtain ⟨h1, h2⟩ := hadd
          refine ⟨by rw [← h1], h2.symm, fun x hx => ?_⟩
          rw [← h1]
          exact hx
        | some ft =>
          rw [hft2] at hadd
          dsimp only at hadd
          simp only [Option.some.injEq, Prod.mk.injEq] at hadd
          obtain ⟨h1, h2⟩ := hadd
          refine ⟨by rw [← h1]; rfl, h2.symm, fun x hx => ?_⟩
          rw [← h1]
          exact notInSets_preventEviction st3 x ft.tid hx
    | true =>
      rw [if_pos (show (true = true) from rfl)] at hadd
      cases hrt : findTable (addLive st newF) newF.referencedTableName with
      | none =>
        rw [hrt] at hadd
        dsimp only at hadd
        cases aF with
        | false =>
          rw [if_neg (show ¬(false = true) from by simp)] at hadd
          simp only [Option.some.injEq, Prod.mk.injEq] at hadd
          obtain ⟨h1, h2⟩ := hadd
          refine ⟨by rw [← h1], h2.symm, fun x hx => ?_⟩
          rw [← h1]
          exact hx
        | true =>
          rw [if_pos (show (true = true) from rfl)] at hadd
          cases hft2 : findTable (addLive st newF) newF.foreignTableName with
          | none =>
            rw [hft2] at hadd
            dsimp only at hadd
            simp only [Option.some.injEq, Prod.mk.injEq] at hadd
            obtain ⟨h1, h2⟩ := hadd
            refine ⟨by rw [← h1], h2.symm, fun x hx => ?_⟩
            rw [← h1]
            exact hx
          | some ft =>
            rw [hft2] at hadd
            dsimp only at hadd
            simp only [Option.some.injEq, Prod.mk.injEq] at hadd
            obtain ⟨h1, h2⟩ := hadd
            refine ⟨by rw [← h1]; rfl, h2.symm, fun x hx => ?_⟩
            rw [← h1]
            exact notInSets_preventEviction st3 x ft.tid hx
      | some rt =>
        rw [hrt] at hadd
        dsimp only at hadd
        cases aF with
        | false =>
          rw [if_neg (show ¬(false = true) from by simp)] at hadd
          simp only [Option.some.injEq, Prod.mk.injEq] at hadd
          obtain ⟨h1, h2⟩ := hadd
          refine ⟨by rw [← h1]; rfl, h2.symm, fun x hx => ?_⟩
          rw [← h1]
          exact notInSets_preventEviction st3 x rt.tid hx
        | true =>
          rw [if_pos (show (true = true) from rfl)] at hadd
          cases hft2 : findTable (addLive st newF) newF.foreignTableName with
          | none =>
            rw [hft2] at hadd
            dsimp only at hadd
            simp only [Option.some.injEq, Prod.mk.injEq] at hadd
            obtain ⟨h1, h2⟩ := hadd
            refine ⟨by rw [← h1]; rfl, h2.symm, fun x hx => ?_⟩
            rw [← h1]
            exact notInSets_preventEviction st3 x rt.tid hx
          | some ft =>
            rw [hft2] at hadd
            dsimp only at hadd
            simp only [Option.some.injEq, Prod.mk.injEq] at hadd
            obtain ⟨h1, h2⟩ := hadd
            refine ⟨by rw [← h1]; rfl, h2.symm, fun x hx => ?_⟩
            rw [← h1]
            exact notInSets_preventEviction _ x ft.tid
              (notInSets_preventEviction st3 x rt.tid hx)

end FKAdd

namespace FKAdd

open FK

/-- C10: when dict_foreign_add_to_cache runs with an equal-identifier
constraint already cached (the lookup resolves to a distinct live object o),
no duplicate set entry is created. If the cached object's resolved
owning-table pointer agrees with the currently cached owning table, the new
object is freed, the cached one stays live, and the new object's handle
appears in no table's set; if the pointer disagrees, the cached object is
removed from the cache and, on success, the new object is the one left
live. -/
theorem c10_equal_id_dedup (e : QEnv) (ov : Option (List String))
    (cc ig : Bool) (st : FState) (newF : FConstraint) (st' : FState)
    (err : Bool) (o : Nat) (g : FConstraint)
    (hadd : dict_foreign_add_to_cache e ov cc ig st newF = some (st', err))
    (hfic : resolveFic (addLive st newF) newF = some o)
    (hne : o ≠ newF.oid)
    (hg : getForeign (addLive st newF) o = some g)
    (hfresh : notInSets (addLive st newF) newF.oid) :
    ((findTable (addLive st newF) newF.foreignTableName).map
        (fun t => t.tid) = g.foreignTable →
      newF.oid ∉ liveOids st' ∧ o ∈ liveOids st'
        ∧ notInSets st' newF.oid)
    ∧ ((findTable (addLive st newF) newF.foreignTableName).map
        (fun t => t.tid) ≠ g.foreignTable →
      o ∉ liveOids st' ∧ (err = false → newF.oid ∈ liveOids st')) := by
  have hded0 : dedupePhase (addLive st newF)
      ((findTable (addLive st newF) newF.foreignTableName).map
        (fun t => t.tid)) newF.oid (resolveFic (addLive st newF) newF) =
      (if ((findTable (addLive st newF) newF.foreignTableName).map
          (fun t => t.tid)) ≠ g.foreignTable then
        some (dict_foreign_remove_from_cache (addLive st newF) o, newF.oid)
      else some (dict_foreign_free (addLive st newF) newF.oid, o)) := by
    rw [hfic]
    simp only [dedupePhase]
    rw [if_neg hne, hg]
  have hadd0 := hadd
  by_cases hft : (findTable (addLive st newF) newF.foreignTableName).map
      (fun t => t.tid) = g.foreignTable
  · refine ⟨fun _ => ?_, fun hcon => absurd hft hcon⟩
    have hdedm := hded0
    rw [if_neg (not_not_intro hft)] at hdedm
    simp only [dict_foreign_add_to_cache] at hadd
    split at hadd
    · exact absurd hadd (by simp)
    · rw [hdedm] at hadd
      dsimp only at hadd
      cases hrp : refPhase e cc ig newF.oid
          (dict_foreign_free (addLive st newF) newF.oid) o
          ((findTable (addLive st newF) newF.referencedTableName).map
            (fun t => t.tid)) with
      | none => rw [hrp] at hadd; exact absurd hadd (by simp)
      | some p =>
        obtain ⟨st2, refErr, aR⟩ := p
        rw [hrp] at hadd
        dsimp only at hadd
        have ho2 : o ∈ liveOids (dict_foreign_free (addLive st newF)
            newF.oid) :=
          (mem_liveOids_free _ newF.oid o hne).mpr
            (getForeign_mem_liveOids _ o g hg)
        have hn1 : notInSets (dict_foreign_free (addLive st newF)
            newF.oid) newF.oid := notInSets_free _ newF.oid newF.oid hfresh
        cases refErr with
        | true =>
          rw [if_pos rfl] at hadd
          simp only [Option.some.injEq, Prod.mk.injEq] at hadd
          obtain ⟨h1, _⟩ := hadd
          rw [← h1]
          refine ⟨fun hmem => ?_, ?_, ?_⟩
          · exact liveOids_free_self (addLive st newF) newF.oid
              (refPhase_liveOids_sub _ _ _ _ _ _ _ _ _ _ hrp newF.oid hmem)
          · exact refPhase_liveOids_pres _ _ _ _ _ _ _ _ _ _ o hne hrp ho2
          · exact refPhase_notInSets _ _ _ _ _ _ _ _ _ _ newF.oid
              (Ne.symm hne) hrp hn1
        | false =>
          rw [if_neg (show ¬(false = true) from by simp)] at hadd
          have hnm2 : newF.oid ∉ liveOids st2 := fun hmem =>
            liveOids_free_self (addLive st newF) newF.oid
              (refPhase_liveOids_sub _ _ _ _ _ _ _ _ _ _ hrp newF.oid hmem)
          have ho3 : o ∈ liveOids st2 :=
            refPhase_liveOids_pres _ _ _ _ _ _ _ _ _ _ o hne hrp ho2
          have hn2 : notInSets st2 newF.oid :=
            refPhase_notInSets _ _ _ _ _ _ _ _ _ _ newF.oid
              (Ne.symm hne) hrp hn1
          cases hfp : forPhase e ov cc ig newF.oid st2 o
              ((findTable (addLive st newF) newF.foreignTableName).map
                (fun t => t.tid))
              ((findTable (addLive st newF) newF.referencedTableName).map
                (fun t => t.tid)) aR with
          | none => rw [hfp] at hadd; exact absurd hadd (by simp)
          | some q =>
            obtain ⟨st3, forErr, aF⟩ := q
            rw [hfp] at hadd
            dsimp only at hadd
            cases forErr with
            | true =>
              rw [if_pos rfl] at hadd
              simp only [Option.some.injEq, Prod.mk.injEq] at hadd
              obtain ⟨h1, _⟩ := hadd
              rw [← h1]
              refine ⟨fun hmem => hnm2 ?_, ?_, ?_⟩
              · exact forPhase_liveOids_sub _ _ _ _ _ _ _ _ _ _ _ _ _ hfp
                  newF.oid hmem
              · exact forPhase_liveOids_pres _ _ _ _ _ _ _ _ _ _ _ _ _ o
                  hne hfp ho3
              · exact forPhase_notInSets _ _ _ _ _ _ _ _ _ _ _ _ _ newF.oid
                  (Ne.symm hne) hfp hn2
            | false =>
              obtain ⟨hfor, _, hnis⟩ := addCache_tail_facts e ov cc ig
                st newF st' err _ o st2 aR st3 aF hadd0 hdedm hrp hfp
              refine ⟨?_, ?_, ?_⟩
              · rw [liveOids_congr st' st3 hfor,
                  forPhase_liveOids_no_error _ _ _ _ _ _ _ _ _ _ _ _ hfp,
                  refPhase_liveOids_no_error _ _ _ _ _ _ _ _ _ hrp]
                exact liveOids_free_self (addLive st newF) newF.oid
              · rw [liveOids_congr st' st3 hfor,
                  forPhase_liveOids_no_error _ _ _ _ _ _ _ _ _ _ _ _ hfp,
                  refPhase_liveOids_no_error _ _ _ _ _ _ _ _ _ hrp]
                exact ho2
              · exact hnis newF.oid (forPhase_notInSets _ _ _ _ _ _ _ _ _
                  _ _ _ _ newF.oid (Ne.symm hne) hfp hn2)
  · refine ⟨fun hcon => absurd hcon hft, fun _ => ?_⟩
    have hdedm := hded0
    rw [if_pos hft] at hdedm
    simp only [dict_foreign_add_to_cache] at hadd
    split at hadd
    · exact absurd hadd (by simp)
    · rw [hdedm] at hadd
      dsimp only at hadd
      cases hrp : refPhase e cc ig newF.oid
          (dict_foreign_remove_from_cache (addLive st newF) o) newF.oid
          ((findTable (addLive st newF) newF.referencedTableName).map
            (fun t => t.tid)) with
      | none => rw [hrp] at hadd; exact absurd hadd (by simp)
      | some p =>
        obtain ⟨st2, refErr, aR⟩ := p
        rw [hrp] at hadd
        dsimp only at hadd
        have hno1 : o ∉ liveOids (dict_foreign_remove_from_cache
            (addLive st newF) o) := liveOids_remove_self _ o g hg
        have hmem1 : newF.oid ∈ liveOids (dict_foreign_remove_from_cache
            (addLive st newF) o) :=
          mem_liveOids_remove (addLive st newF) o newF.oid (Ne.symm hne)
            (mem_liveOids_addLive st newF)
        cases refErr with
        | true =>
          rw [if_pos rfl] at hadd
          simp only [Option.some.injEq, Prod.mk.injEq] at hadd
          obtain ⟨h1, h2⟩ := hadd
          rw [← h1]
          refine ⟨fun hmem => hno1 ?_, fun hef => absurd (h2.trans hef)
            (by simp)⟩
          exact refPhase_liveOids_sub _ _ _ _ _ _ _ _ _ _ hrp o hmem
        | false =>
          rw [if_neg (show ¬(false = true) from by simp)] at hadd
          have hno2 : o ∉ liveOids st2 := fun hmem => hno1
            (refPhase_liveOids_sub _ _ _ _ _ _ _ _ _ _ hrp o hmem)
          cases hfp : forPhase e ov cc ig newF.oid st2 newF.oid
              ((findTable (addLive st newF) newF.foreignTableName).map
                (fun t => t.tid))
              ((findTable (addLive st newF) newF.referencedTableName).map
                (fun t => t.tid)) aR with
          | none => rw [hfp] at hadd; exact absurd hadd (by simp)
          | some q =>
            obtain ⟨st3, forErr, aF⟩ := q
            rw [hfp] at hadd
            dsimp only at hadd
            cases forErr with
            | true =>
              rw [if_pos rfl] at hadd
              simp only [Option.some.injEq, Prod.mk.injEq] at hadd
              obtain ⟨h1, h2⟩ := hadd
              rw [← h1]
              refine ⟨fun hmem => hno2 ?_, fun hef => absurd (h2.trans hef)
                (by simp)⟩
              exact forPhase_liveOids_sub _ _ _ _ _ _ _ _ _ _ _ _ _ hfp
                o hmem
            | false =>
              obtain ⟨hfor, _, _⟩ := addCache_tail_facts e ov cc ig
                st newF st' err _ newF.oid st2 aR st3 aF hadd0 hdedm hrp hfp
              refine ⟨?_, fun _ => ?_⟩
              · rw [liveOids_congr st' st3 hfor,
                  forPhase_liveOids_no_error _ _ _ _ _ _ _ _ _ _ _ _ hfp,
                  refPhase_liveOids_no_error _ _ _ _ _ _ _ _ _ hrp]
                exact hno1
              · rw [liveOids_congr st' st3 hfor,
                  forPhase_liveOids_no_error _ _ _ _ _ _ _ _ _ _ _ _ hfp,
                  refPhase_liveOids_no_error _ _ _ _ _ _ _ _ _ hrp]
                exact hmem1

end FKAdd

namespace FKAdd

open FK

/-- Cache with tables f and r and a fully resolved cached constraint fk1
(oid 1) present in f's outgoing and r's incoming set. -/
def c10St : FState :=
  ⟨[⟨1, "f", ⟨["a"], [], []⟩, [1], [], true⟩,
    ⟨2, "r", ⟨["b"], [], []⟩, [], [1], true⟩],
   [⟨1, "fk1", "f", "r", ["a"], ["b"], some 1, some 2, none, none,
     false⟩]⟩

/-- A newly supplied constraint object with the same identifier fk1. -/
def c10New : FConstraint :=
  ⟨2, "fk1", "f", "r", ["a"], ["b"], none, none, none, none, false⟩

/-- The cached equal-identifier object found by the lookup. -/
def c10G : FConstraint :=
  ⟨1, "fk1", "f", "r", ["a"], ["b"], some 1, some 2, none, none, false⟩

theorem c10_equal_id_dedup_witness :
    ((findTable (addLive c10St c10New) c10New.foreignTableName).map
        (fun t => t.tid) = c10G.foreignTable →
      c10New.oid ∉ liveOids c10St ∧ (1 : Nat) ∈ liveOids c10St
        ∧ notInSets c10St c10New.oid)
    ∧ ((findTable (addLive c10St c10New) c10New.foreignTableName).map
        (fun t => t.tid) ≠ c10G.foreignTable →
      (1 : Nat) ∉ liveOids c10St
        ∧ (false = false → c10New.oid ∈ liveOids c10St)) :=
  c10_equal_id_dedup ⟨fun a b => a == b, fun _ _ _ => true⟩ none true false
    c10St c10New c10St false 1 c10G (by decide) (by decide) (by decide)
    (by decide) (by unfold notInSets; decide)

end FKAdd
